import Mathlib

/-!
Verification development for the PGWAIReader word-web puzzle subsystem.

This file gives a shallow embedding of the three algorithmic sources of the
repository and proves the frozen claims about them:

  * `netlify/functions/wordweb.js` (the on-demand daily generator):
    xmur3 / mulberry32 seeded PRNG, `seededShuffle`, `normalizeWord`,
    `loadWordList` (pure token-processing part), `canPlace`, `placeWord`,
    `tryGenerate`, `generatePuzzleForDate`.
  * `scripts/wordweb-build.mjs` (the batch builder): `rng`, `shuffle`,
    `tryPlaceStraight`, `tryPlaceBent`, `fillDots`, `buildPuzzle`.
  * the UI validator (`validateAndRepair`).

Modelling conventions:
  * JS strings are modelled as `List Char`; `charCodeAt` is `Char.toNat`
    (the sources only ever hash ASCII seed strings).
  * JS 32-bit integer arithmetic is modelled on `Nat` with explicit
    `% 4294967296`; `Math.imul`, `^`, `|`, `>>>`, `<<` become the
    corresponding `Nat` operations.  `Math.floor(rand() * n)` is modelled
    as `t * n / 2^32` where `t` is the 32-bit PRNG output: the JS double
    division `t / 2^32` is exact and the product with the small `n` used
    here stays below 2^53, so the floor is exactly `t * n / 2^32`.
  * mutable grids become explicit state passing; the PRNG closures become
    an explicit `Nat` state threaded through every computation.
  * `Math.random()` in the validator (its only impure input) is modelled
    as an arbitrary stream `f : Nat → Nat`, draw `i` giving the letter
    index `f i % 26` in `[0, 26)`.
  * fallible code returns `Except (List Char)` carrying the thrown message.
-/

namespace WordWeb

/-- 2 ^ 32, the modulus of JavaScript 32-bit integer coercions. -/
def U32 : Nat := 4294967296

/-- Math.imul: the low 32 bits of the product. -/
def imul (a b : Nat) : Nat := a * b % U32

/-- One character-mixing step of `xmur3`:
h = imul(h ^ c, 3432918353); h = (h << 13) | (h >>> 19) (a 32-bit rotate). -/
def xmur3Step (h : Nat) (c : Nat) : Nat :=
  let h1 := imul (Nat.xor h c) 3432918353
  Nat.lor (h1 * 8192 % U32) (h1 >>> 19)

/-- The state of `xmur3(str)` after folding over the characters,
starting from 1779033703 ^ str.length. -/
def xmur3Init (s : List Char) : Nat :=
  s.foldl (fun h c => xmur3Step h c.toNat) (Nat.xor 1779033703 s.length)

/-- The finalization performed by the closure returned by `xmur3`. -/
def xmur3Out (h : Nat) : Nat :=
  let h1 := imul (Nat.xor h (h >>> 16)) 2246822507
  let h2 := imul (Nat.xor h1 (h1 >>> 13)) 3266489909
  Nat.xor h2 (h2 >>> 16)

/-- `xmur3(str)()`: the single 32-bit seed drawn from the string hash,
exactly as `tryGenerate` uses it. -/
def xmur3First (s : List Char) : Nat := xmur3Out (xmur3Init s)

/-- One step of `mulberry32` (also the core of the batch script's `rng`):
from state `a` produce the next state and the 32-bit output `t`; the JS
`rand()` value is `t / 2^32`.  The JS additions that may exceed 32 bits
are exact in doubles (both summands are below 2^32), and the final
`ToInt32` coercion is the explicit `% U32` here. -/
def mstep (a : Nat) : Nat × Nat :=
  let a' := (a + 1831565813) % U32
  let t1 := imul (Nat.xor a' (a' >>> 15)) (Nat.lor a' 1)
  let t2 := Nat.xor t1 ((t1 + imul (Nat.xor t1 (t1 >>> 7)) (Nat.lor t1 61)) % U32)
  (a', Nat.xor t2 (t2 >>> 14))

/-- `Math.floor(rand() * n)` together with the advanced PRNG state. -/
def randIdx (s n : Nat) : Nat × Nat :=
  let p := mstep s
  (p.1, p.2 * n / U32)

/-- The JS destructuring swap `[a[i], a[j]] = [a[j], a[i]]` on a list. -/
def swapL {α : Type} (l : List α) (i j : Nat) : List α :=
  match l[i]?, l[j]? with
  | some vi, some vj => (l.set i vj).set j vi
  | _, _ => l

/-- The Fisher–Yates loop of `seededShuffle`/`shuffle`: index `i` runs
from `a.length - 1` down to `1`; the argument of `shuffleGo` is the
current index. -/
def shuffleGo {α : Type} : List α → Nat → Nat → List α × Nat
  | a, s, 0 => (a, s)
  | a, s, Nat.succ im =>
    let p := randIdx s (im + 2)
    shuffleGo (swapL a (im + 1) p.2) p.1 im

/-- `seededShuffle(arr, rand)` (identical to the batch script's `shuffle`). -/
def seededShuffle {α : Type} (a : List α) (s : Nat) : List α × Nat :=
  match a.length with
  | 0 => (a, s)
  | Nat.succ n => shuffleGo a s n

/-- One entry of the `DIRS` table of the serverless generator:
a unit step plus its direction-class tag (the JS `type` field,
one of "H", "V", "D", modelled as a `Char`). -/
structure Dir where
  dx : Int
  dy : Int
  ty : Char
deriving DecidableEq, Repr

/-- The eight straight directions with their classes. -/
def DIRS : List Dir :=
  [⟨1, 0, 'H'⟩, ⟨-1, 0, 'H'⟩, ⟨0, 1, 'V'⟩, ⟨0, -1, 'V'⟩,
   ⟨1, 1, 'D'⟩, ⟨-1, -1, 'D'⟩, ⟨1, -1, 'D'⟩, ⟨-1, 1, 'D'⟩]

/-- Cell lookup `grid[y][x]` with a default for the (bounds-checked,
hence never exercised) out-of-range case. -/
def getM {α : Type} (g : List (List α)) (d : α) (x y : Int) : α :=
  (g.getD y.toNat []).getD x.toNat d

/-- Cell write `grid[y][x] = v`. -/
def setM {α : Type} (g : List (List α)) (x y : Int) (v : α) : List (List α) :=
  g.set y.toNat ((g.getD y.toNat []).set x.toNat v)

/-- The grid is a well-formed `N` by `N` matrix. -/
def WFm {α : Type} (N : Nat) (g : List (List α)) : Prop :=
  g.length = N ∧ ∀ r ∈ g, r.length = N

/-- The generator's grid: `null` cells are `none`. -/
abbrev Grid := List (List (Option Char))

/-- Bounds test `!(xx < 0 || yy < 0 || xx >= N || yy >= N)`. -/
def inB (N : Nat) (x y : Int) : Bool :=
  decide (0 ≤ x) && decide (x < (N : Int)) && decide (0 ≤ y) && decide (y < (N : Int))

/-- `canPlace`: every cell along the word's line is in bounds and still
empty.  The recursion consumes the word while advancing the position,
mirroring the `for` loop over `i`. -/
def canPlace (g : Grid) (N : Nat) : List Char → Int → Int → Int → Int → Bool
  | [], _, _, _, _ => true
  | _ :: rest, x, y, dx, dy =>
    inB N x y && (getM g none x y).isNone && canPlace g N rest (x + dx) (y + dy) dx dy

/-- The letter-writing loop of `placeWord` after a successful `canPlace`. -/
def writeWord (g : Grid) : List Char → Int → Int → Int → Int → Grid
  | [], _, _, _, _ => g
  | c :: rest, x, y, dx, dy => writeWord (setM g x y (some c)) rest (x + dx) (y + dy) dx dy

/-- The candidate directions for a desired class (`DIRS.filter` in JS),
or all of `DIRS` when no class is required. -/
def dirsFor (desired : Option Char) : List Dir :=
  match desired with
  | some t => DIRS.filter (fun d => d.ty == t)
  | none => DIRS

/-- The `maxTries` loop of `placeWord`: draw a direction, a start `x`
and a start `y`, commit on the first `canPlace` success, and report the
placed direction class.  On exhaustion returns `none` with the grid
untouched.  The PRNG state is returned in every case. -/
def placeWordGo (N : Nat) (w : List Char) (directions : List Dir) :
    Grid → Nat → Nat → Option Char × Grid × Nat
  | g, s, 0 => (none, g, s)
  | g, s, Nat.succ fuel =>
    let p1 := randIdx s directions.length
    let dir := directions.getD p1.2 ⟨1, 0, 'H'⟩
    let p2 := randIdx p1.1 N
    let p3 := randIdx p2.1 N
    let x : Int := p2.2
    let y : Int := p3.2
    if canPlace g N w x y dir.dx dir.dy then
      (some dir.ty, writeWord g w x y dir.dx dir.dy, p3.1)
    else
      placeWordGo N w directions g p3.1 fuel

/-- `placeWord(grid, N, word, rand, desiredType, maxTries)`. -/
def placeWord (g : Grid) (N : Nat) (w : List Char) (s : Nat) (desired : Option Char)
    (maxTries : Nat) : Option Char × Grid × Nat :=
  placeWordGo N w (dirsFor desired) g s maxTries

/-- One word of the placement stage of `tryGenerate`: the first three
words carry a desired class and fall back to an unrestricted retry; the
remaining words are placed by a single unrestricted call. -/
def placeOne (g : Grid) (N : Nat) (w : List Char) (s : Nat) :
    Option Char → Option (Char × Grid × Nat)
  | some t =>
    match placeWord g N w s (some t) 800 with
    | (some ty, g', s') => some (ty, g', s')
    | (none, g', s') =>
      match placeWord g' N w s' none 800 with
      | (some ty, g'', s'') => some (ty, g'', s'')
      | (none, _, _) => none
  | none =>
    match placeWord g N w s none 800 with
    | (some ty, g', s') => some (ty, g', s')
    | (none, _, _) => none

/-- The placement loops of `tryGenerate`, collecting `usedTypes`;
`none` models the `return null` failure signal. -/
def placeList (N : Nat) : Grid → Nat → List (List Char × Option Char) →
    Option (Grid × Nat × List Char)
  | g, s, [] => some (g, s, [])
  | g, s, (w, tgt) :: rest =>
    match placeOne g N w s tgt with
    | none => none
    | some (ty, g', s') =>
      match placeList N g' s' rest with
      | none => none
      | some (g'', s'', tys) => some (g'', s'', ty :: tys)

/-- The deterministic picker loop: walk the shuffled pool, keeping the
first six distinct words. -/
def pickGo : List (List Char) → List (List Char) → List (List Char)
  | [], acc => acc
  | w :: rest, acc =>
    if 6 ≤ acc.length then acc
    else if w ∈ acc then pickGo rest acc
    else pickGo rest (acc ++ [w])

/-- The desired classes: "H", "V", "D" for the first three words, no
restriction afterwards. -/
def targetsFor (n : Nat) : List (Option Char) :=
  [some 'H', some 'V', some 'D'] ++ List.replicate (n - 3) none

/-- `randLetter`: `String.fromCharCode(65 + Math.floor(rand() * 26))`. -/
def randLetter (s : Nat) : Nat × Char :=
  let p := randIdx s 26
  (p.1, Char.ofNat (65 + p.2))

/-- Turn one grid row into its final characters, drawing a random letter
for each empty cell, left to right. -/
def fillRow : List (Option Char) → Nat → List Char × Nat
  | [], s => ([], s)
  | some ch :: rest, s =>
    let p := fillRow rest s
    (ch :: p.1, p.2)
  | none :: rest, s =>
    let q := randLetter s
    let p := fillRow rest q.1
    (q.2 :: p.1, p.2)

/-- The row-major fill step of `tryGenerate` (`grid.map(row => ...)`). -/
def fillRows : Grid → Nat → List (List Char) × Nat
  | [], s => ([], s)
  | row :: rest, s =>
    let p := fillRow row s
    let q := fillRows rest p.2
    (p.1 :: q.1, q.2)

/-- The puzzle artifact `{ theme, size, grid, answers }`; the same shape
is produced by the batch builder and consumed by the validator. -/
structure Puzzle where
  theme : List Char
  size : Nat
  grid : List (List Char)
  answers : List (List Char)
deriving DecidableEq, Repr

/-- The seed string `dateStr + "|" + allWords.length + "|" + attemptSalt`. -/
def theSeedString (dateStr : List Char) (nWords salt : Nat) : List Char :=
  dateStr ++ '|' :: Nat.toDigits 10 nWords ++ '|' :: Nat.toDigits 10 salt

/-- The message of the internal picker failure throw. -/
def pickerErr : List Char := "Internal picker failed to select 6 words.".toList

/-- `tryGenerate(dateStr, allWords, attemptSalt)`: `Except.error` models a
throw, `Except.ok none` models the `return null` placement-failure signal,
`Except.ok (some p)` a fully built puzzle. -/
def tryGenerate (dateStr : List Char) (allWords : List (List Char)) (attemptSalt : Nat) :
    Except (List Char) (Option Puzzle) :=
  let N := 12
  let seedFrom := xmur3First (theSeedString dateStr allWords.length attemptSalt)
  let sh := seededShuffle allWords seedFrom
  let pick := pickGo sh.1 []
  if pick.length ≠ 6 then .error pickerErr
  else
    let grid0 : Grid := List.replicate N (List.replicate N none)
    match placeList N grid0 sh.2 (pick.zip (targetsFor pick.length)) with
    | none => .ok none
    | some (g, s2, _tys) =>
      let fr := fillRows g s2
      .ok (some ⟨"Wodehouse Sampler".toList, N, fr.1, pick⟩)

/-- The `usedTypes` list computed by a build attempt (the source computes
it in `tryGenerate` and drops it at return; this projection exposes it). -/
def runTypes (dateStr : List Char) (allWords : List (List Char)) (attemptSalt : Nat) :
    Option (List Char) :=
  let seedFrom := xmur3First (theSeedString dateStr allWords.length attemptSalt)
  let sh := seededShuffle allWords seedFrom
  let pick := pickGo sh.1 []
  if pick.length ≠ 6 then none
  else
    let grid0 : Grid := List.replicate 12 (List.replicate 12 none)
    match placeList 12 grid0 sh.2 (pick.zip (targetsFor pick.length)) with
    | none => none
    | some (_, _, tys) => some tys

/-- The message thrown when all 50 attempts fail. -/
def exhaustMsg : List Char :=
  "Unable to place 6 words after multiple attempts. (Check long words or reduce density.)".toList

/-- The attempt loop of `generatePuzzleForDate`; the first argument of the
recursion is the current `attempt` salt, the second the remaining count. -/
def genGo (d : List Char) (ws : List (List Char)) : Nat → Nat → Except (List Char) Puzzle
  | _, 0 => .error exhaustMsg
  | attempt, Nat.succ fuel =>
    match tryGenerate d ws attempt with
    | .error e => .error e
    | .ok none => genGo d ws (attempt + 1) fuel
    | .ok (some p) => if p.answers.length = 6 then .ok p else genGo d ws (attempt + 1) fuel

/-- `generatePuzzleForDate(dateStr, allWords)`: up to 50 attempts with
salts 0..49. -/
def generatePuzzleForDate (d : List Char) (ws : List (List Char)) :
    Except (List Char) Puzzle :=
  genGo d ws 0 50

/-! ### Word loading (`loadWordList`, pure token-processing part)

The file lookup across candidate paths is I/O and is not modelled; the
processing of the raw file contents is. -/

/-- Split on the separators of `/\r?\n|\t|,/g`: `"\r\n"`, `"\n"`, `"\t"`
or `","`; a lone `'\r'` is ordinary token text (and is later dropped by
normalization), exactly as under the JS regex. -/
def splitGo : List Char → List Char → List (List Char)
  | cur, [] => [cur.reverse]
  | cur, '\r' :: '\n' :: rest => cur.reverse :: splitGo [] rest
  | cur, '\n' :: rest => cur.reverse :: splitGo [] rest
  | cur, '\t' :: rest => cur.reverse :: splitGo [] rest
  | cur, ',' :: rest => cur.reverse :: splitGo [] rest
  | cur, c :: rest => splitGo (c :: cur) rest

/-- ASCII upper-casing of one character (`toUpperCase` on the `[a-z]`
range; other characters are left alone and then filtered away). -/
def upChar (c : Char) : Char :=
  if 'a' ≤ c && c ≤ 'z' then Char.ofNat (c.toNat - 32) else c

/-- Membership in `[A-Z]`. -/
def isUpper (c : Char) : Bool := 'A' ≤ c && c ≤ 'Z'

/-- `normalizeWord` / `normalizeRow` / `norm`: uppercase, then strip
everything outside `[A-Z]`. -/
def normChars (w : List Char) : List Char := (w.map upChar).filter isUpper

/-- `Array.from(new Set(words))`: deduplicate keeping first occurrences. -/
def dedupGo : List (List Char) → List (List Char) → List (List Char)
  | [], acc => acc
  | w :: rest, acc => if w ∈ acc then dedupGo rest acc else dedupGo rest (acc ++ [w])

/-- The token pipeline of `loadWordList`: split, normalize, drop empties,
keep lengths 4..12. -/
def eligible (raw : List Char) : List (List Char) :=
  (((splitGo [] raw).map normChars).filter (fun w => !w.isEmpty)).filter
    (fun w => 4 ≤ w.length && w.length ≤ 12)

/-- The deduplicated eligible words. -/
def uniqWords (raw : List Char) : List (List Char) := dedupGo (eligible raw) []

/-- The corpus-insufficiency message, reporting the count found. -/
def insuffMsg (n : Nat) : List Char :=
  "Not enough eligible words (need >= 6 of length 4–12). Found: ".toList
    ++ Nat.toDigits 10 n ++ ['.']

/-- The pure part of `loadWordList`, applied to the raw file contents. -/
def loadWords (raw : List Char) : Except (List Char) (List (List Char)) :=
  let uniq := uniqWords raw
  if uniq.length < 6 then .error (insuffMsg uniq.length) else .ok uniq

/-! ### The batch builder (`scripts/wordweb-build.mjs`) -/

/-- The FNV-style seeding of the script's `rng`; the per-draw core is the
same `mstep` as `mulberry32`.  An empty seed string falls back to
`"seed"` (`String(seedStr || "seed")`). -/
def rngInit (seedStr : List Char) : Nat :=
  let s := if seedStr.isEmpty then "seed".toList else seedStr
  s.foldl (fun h c => Nat.xor h c.toNat * 16777619 % U32) 2166136261

/-- The script's grid: rows of characters, `'.'` marking an empty cell. -/
abbrev GridS := List (List Char)

/-- The script's direction table (no class tags). -/
def DIRS2 : List (Int × Int) :=
  [(1, 0), (0, 1), (-1, 0), (0, -1), (1, 1), (1, -1), (-1, 1), (-1, -1)]

/-- `Array.from({length:N*N},(_,k)=>[k%N,(k/N)|0])`: all cells in row-major
order as `(x, y)`. -/
def cellsList (N : Nat) : List (Nat × Nat) :=
  (List.range (N * N)).map (fun k => (k % N, k / N))

/-- Cell read on the script's grid (`'?'` marks the never-taken
out-of-bounds default; every read is bounds-checked first). -/
def getS (g : GridS) (x y : Int) : Char := getM g '?' x y

/-- `inBounds(x, y, N)`. -/
def inBoundsB (x y : Int) (N : Nat) : Bool :=
  decide (0 ≤ x) && decide (0 ≤ y) && decide (x < (N : Int)) && decide (y < (N : Int))

/-- The walk of `tryPlaceStraight`'s inner loop: each cell must be in
bounds and either empty or already holding the same letter. -/
def straightFits (g : GridS) (N : Nat) : List Char → Int → Int → Int → Int → Bool
  | [], _, _, _, _ => true
  | c :: rest, x, y, dx, dy =>
    inBoundsB x y N && (getS g x y == '.' || getS g x y == c) &&
      straightFits g N rest (x + dx) (y + dy) dx dy

/-- The commit loop of `tryPlaceStraight`. -/
def commitS (g : GridS) : List Char → Int → Int → Int → Int → GridS
  | [], _, _, _, _ => g
  | c :: rest, x, y, dx, dy => commitS (setM g x y c) rest (x + dx) (y + dy) dx dy

/-- Generic first-success search, modelling a JS loop that returns on the
first hit and falls through otherwise. -/
def firstSome {α β : Type} (f : α → Option β) : List α → Option β
  | [] => none
  | a :: rest =>
    match f a with
    | some b => some b
    | none => firstSome f rest

/-- `tryPlaceStraight(grid, word, rnd)`: shuffle the directions, then the
cells, scan cells × directions, commit on the first fit. -/
def tryPlaceStraight (g : GridS) (w : List Char) (s : Nat) : Bool × GridS × Nat :=
  let N := g.length
  let d := seededShuffle DIRS2 s
  let cl := seededShuffle (cellsList N) d.2
  match
    firstSome (fun c0 =>
      firstSome (fun dd =>
        if straightFits g N w c0.1 c0.2 dd.1 dd.2 then
          some (commitS g w c0.1 c0.2 dd.1 dd.2)
        else none) d.1)
      cl.1
  with
  | some g' => (true, g', cl.2)
  | none => (false, g, cl.2)

/-- The commit loop of the bent engine (the dead `indexOf` write in the
source is immediately overwritten by the correct indexed loop, so only
the latter is modelled); pairs the visited cells with the word's
letters. -/
def writeVisited (g : GridS) : List (Int × Int) → List Char → GridS
  | _, [] => g
  | [], _ => g
  | p :: ps, c :: cs => writeVisited (setM g p.1 p.2 c) ps cs

/-- The recursive `dfs` of `tryPlaceBent`.  The fuel argument counts the
remaining recursion depth; `tryPlaceBent` passes `word.length`, which the
search never exhausts for a non-empty word (each level advances `idx` and
the `idx === word.length - 1` level commits without recursing), and for
the empty word both the source and this model find nothing. -/
def dfsB (g : GridS) (N : Nat) (w : List Char) (dirOrder : List (Int × Int)) (maxTurns : Nat) :
    Nat → Int → Int → Nat → Nat → Option (Int × Int) → List (Int × Int) → Option GridS
  | 0, _, _, _, _, _, _ => none
  | Nat.succ fuel, x, y, idx, turns, usedDir, visited =>
    if !inBoundsB x y N then none
    else if !(getS g x y == '.' || w[idx]? == some (getS g x y)) then none
    else
      let visited' := visited ++ [(x, y)]
      if (idx : Int) = (w.length : Int) - 1 then some (writeVisited g visited' w)
      else
        firstSome (fun dd =>
          let turned :=
            match usedDir with
            | some u => decide (u ≠ dd)
            | none => false
          if turned && decide (maxTurns ≤ turns) then none
          else
            let nx := x + dd.1
            let ny := y + dd.2
            if !inBoundsB nx ny N then none
            else if visited'.contains (nx, ny) then none
            else if !(getS g nx ny == '.' || w[idx + 1]? == some (getS g nx ny)) then none
            else
              dfsB g N w dirOrder maxTurns fuel nx ny (idx + 1)
                (turns + if turned then 1 else 0) (some dd) visited')
          dirOrder

/-- `tryPlaceBent(grid, word, rnd, maxTurns)`: shuffle the start cells,
then the direction order, and run the depth-first search from each start
cell in turn. -/
def tryPlaceBent (g : GridS) (w : List Char) (s : Nat) (maxTurns : Nat) :
    Bool × GridS × Nat :=
  let N := g.length
  let sc := seededShuffle (cellsList N) s
  let dOrd := seededShuffle DIRS2 sc.2
  match
    firstSome (fun st =>
      dfsB g N w dOrd.1 maxTurns w.length (st.1 : Int) (st.2 : Int) 0 0 none []) sc.1
  with
  | some g' => (true, g', dOrd.2)
  | none => (false, g, dOrd.2)

/-- `fillDots` on one row. -/
def fillDotsRow : List Char → Nat → List Char × Nat
  | [], s => ([], s)
  | c :: rest, s =>
    if c == '.' then
      let q := randLetter s
      let p := fillDotsRow rest q.1
      (q.2 :: p.1, p.2)
    else
      let p := fillDotsRow rest s
      (c :: p.1, p.2)

/-- `fillDots(grid, rnd)`: replace every `'.'` with a random letter,
row-major. -/
def fillDots : GridS → Nat → GridS × Nat
  | [], s => ([], s)
  | row :: rest, s =>
    let p := fillDotsRow row s
    let q := fillDots rest p.2
    (p.1 :: q.1, q.2)

/-- The oversized-word message of `buildPuzzle`. -/
def oversizeMsg (w : List Char) (N : Nat) : List Char :=
  "Word \"".toList ++ w ++ "\" longer than grid size ".toList ++ Nat.toDigits 10 N ++ ['.']

/-- The per-word placement-failure message of `buildPuzzle`. -/
def failMsg (w : List Char) : List Char := "Failed to place word: ".toList ++ w

/-- The body of `buildPuzzle`'s word loop: oversize check, straight
attempt, bent attempt with turn budget 2, lax bent retry with budget 3,
then the fatal per-word error. -/
def placeOneBuild (N : Nat) (g : GridS) (w : List Char) (s : Nat) :
    Except (List Char) (GridS × Nat) :=
  if N < w.length then .error (oversizeMsg w N)
  else
    match tryPlaceStraight g w s with
    | (true, g', s') => .ok (g', s')
    | (false, _, s') =>
      match tryPlaceBent g w s' 2 with
      | (true, g', s2) => .ok (g', s2)
      | (false, _, s2) =>
        match tryPlaceBent g w s2 3 with
        | (true, g', s3) => .ok (g', s3)
        | (false, _, _) => .error (failMsg w)

/-- The word loop of `buildPuzzle`. -/
def placeLoop (N : Nat) : GridS → Nat → List (List Char) → Except (List Char) (GridS × Nat)
  | g, s, [] => .ok (g, s)
  | g, s, w :: rest =>
    match placeOneBuild N g w s with
    | .error e => .error e
    | .ok (g', s') => placeLoop N g' s' rest

/-- Stable insertion into a length-descending list (insert before the
first strictly shorter entry), matching a stable `Array.sort` with
comparator `b.length - a.length`. -/
def sortInsert (w : List Char) : List (List Char) → List (List Char)
  | [] => [w]
  | v :: rest => if v.length < w.length then w :: v :: rest else v :: sortInsert w rest

/-- Stable sort by length, longest first. -/
def sortByLenDesc : List (List Char) → List (List Char)
  | [] => []
  | w :: rest => sortInsert w (sortByLenDesc rest)

/-- `buildPuzzle(date, theme, rawWords, size, seedStr)`. -/
def buildPuzzle (date theme : List Char) (rawWords : List (List Char)) (size : Nat)
    (seedStr : List Char) : Except (List Char) Puzzle :=
  let seedResolved := if !seedStr.isEmpty then seedStr
    else if !date.isEmpty then date else theme
  let s0 := rngInit seedResolved
  let N := size
  let grid0 : GridS := List.replicate N (List.replicate N '.')
  let answers := (rawWords.map normChars).filter (fun w => !w.isEmpty)
  let sh := seededShuffle answers s0
  let order := sortByLenDesc sh.1
  match placeLoop N grid0 sh.2 order with
  | .error e => .error e
  | .ok (g, s1) =>
    let fd := fillDots g s1
    .ok ⟨theme, N, fd.1, answers⟩

/-! ### The validator (`validateAndRepair`) -/

/-- The loosely-typed puzzle JSON as the validator sees it: a field is
`none` when absent or of the wrong JS type (`isString` / `Number.isInteger`
/ `isArray` failing). -/
structure RawPuzzle where
  theme : Option (List Char)
  size : Option Int
  grid : Option (List (List Char))
  answers : Option (List (List Char))
deriving DecidableEq, Repr

/-- The whitespace test of `String.trim`. -/
def wsChar (c : Char) : Bool := c == ' ' || c == '\t' || c == '\n' || c == '\r'

/-- `theme.trim()`. -/
def trimChars (l : List Char) : List Char :=
  ((l.dropWhile wsChar).reverse.dropWhile wsChar).reverse

/-- One random letter of the validator, drawn from the abstract
`Math.random()` stream: draw `i` yields letter index `f i % 26`. -/
def letterOf (f : Nat → Nat) (i : Nat) : Char := Char.ofNat (65 + f i % 26)

/-- The `while (rr.length < N) rr += rand()` padding loop; the fuel is
`N - rr.length`, exactly the number of iterations the guard allows. -/
def padLoop (f : Nat → Nat) (N : Nat) : Nat → List Char → Nat → List Char × Nat
  | 0, r, k => (r, k)
  | Nat.succ fuel, r, k =>
    if r.length < N then padLoop f N fuel (r ++ [letterOf f k]) (k + 1) else (r, k)

/-- Pad then truncate one row to exactly `N` characters, threading the
index into the random stream. -/
def padRow (f : Nat → Nat) (N : Nat) (r : List Char) (k : Nat) : List Char × Nat :=
  let p := padLoop f N (N - r.length) r k
  (p.1.take N, p.2)

/-- The `grid.map(...)` pass padding/truncating every row in order. -/
def padRows (f : Nat → Nat) (N : Nat) : List (List Char) → Nat → List (List Char) × Nat
  | [], k => ([], k)
  | r :: rest, k =>
    let p := padRow f N r k
    let q := padRows f N rest p.2
    (p.1 :: q.1, q.2)

/-- `while (grid.length < N) grid.push(""); if (grid.length > N) slice`:
append empty rows up to `N`, then truncate. -/
def extendRows (N : Nat) (g : List (List Char)) : List (List Char) :=
  (g ++ List.replicate (N - g.length) []).take N

/-- `Math.max(...grid.map(r => r.length))` (the grid is non-empty here). -/
def maxRowLen (g : List (List Char)) : Nat := g.foldr (fun r m => max r.length m) 0

/-- The rejection reason for a missing or empty grid. -/
def missingGridMsg : List Char := "Missing grid array.".toList

/-- The rejection reason for an empty answer list. -/
def noAnswersMsg : List Char := "No answers provided.".toList

/-- The default theme. -/
def untitled : List Char := "Untitled".toList

/-- `(json.answers || []).map(normalizeAns).filter(Boolean)`: the answers
that survive normalization. -/
def survivingAnswers (j : RawPuzzle) : List (List Char) :=
  ((match j.answers with | some a => a | none => []).map normChars).filter
    (fun w => !w.isEmpty)

/-- `validateAndRepair(json)`; `f` abstracts the `Math.random()` stream
used for repair letters.  (The `typeof json !== "object"` rejection has
no counterpart: a `RawPuzzle` is always an object.) -/
def validateAndRepair (f : Nat → Nat) (j : RawPuzzle) : Except (List Char) Puzzle :=
  let theme :=
    match j.theme with
    | some t => trimChars t
    | none => untitled
  let size0 : Int :=
    match j.size with
    | some s => s
    | none => 0
  match j.grid with
  | none => .error missingGridMsg
  | some rows0 =>
    if rows0.length = 0 then .error missingGridMsg
    else
      let rows1 := rows0.map normChars
      let N : Nat := if size0 < 2 then max rows1.length (maxRowLen rows1) else size0.toNat
      let padded := padRows f N (extendRows N rows1) 0
      let answers := survivingAnswers j
      if answers.length = 0 then .error noAnswersMsg
      else .ok ⟨theme, N, padded.1, answers⟩

/-- Re-wrap a repaired puzzle as validator input (every field present and
well-typed), for the idempotence claim. -/
def toRaw (p : Puzzle) : RawPuzzle :=
  ⟨some p.theme, some (p.size : Int), some p.grid, some p.answers⟩

/-! ### Path vocabulary for the claims -/

/-- The `i`-th cell of a straight line. -/
def posAt (x y dx dy : Int) (i : Nat) : Int × Int := (x + dx * i, y + dy * i)

/-- All cells of a straight line of the given length. -/
def lineCells (x y dx dy : Int) (len : Nat) : List (Int × Int) :=
  (List.range len).map (posAt x y dx dy)

/-- Character of a finished (string-rows) grid at a cell. -/
def charAt (rows : List (List Char)) (x y : Int) : Char := getM rows '?' x y

/-- The word is spelt along the straight line inside the `N` × `N` board. -/
def spellsAtB (rows : List (List Char)) (N : Nat) : List Char → Int → Int → Int → Int → Bool
  | [], _, _, _, _ => true
  | c :: rest, x, y, dx, dy =>
    inB N x y && (charAt rows x y == c) && spellsAtB rows N rest (x + dx) (y + dy) dx dy

/-- A committed straight placement: start cell, direction, class tag. -/
structure Placement where
  x : Int
  y : Int
  dx : Int
  dy : Int
  ty : Char
deriving DecidableEq, Repr

/-- The cells covered by a placement of a given word. -/
def plCells (pw : Placement × List Char) : List (Int × Int) :=
  lineCells pw.1.x pw.1.y pw.1.dx pw.1.dy pw.2.length

/-- A committed placement of word `w`, relative to the grid `g` seen when
the word was placed and the final pre-fill grid `gfin` of the attempt:
its direction is a `DIRS` entry with the recorded class, every cell of
its line is inside the board, was empty in `g`, and holds the word's
letters in `gfin`. -/
def placedOK (g gfin : Grid) (N : Nat) (w : List Char) (pl : Placement) : Prop :=
  (⟨pl.dx, pl.dy, pl.ty⟩ : Dir) ∈ DIRS ∧
  (∀ i : Nat, i < w.length → inB N (pl.x + pl.dx * i) (pl.y + pl.dy * i) = true) ∧
  (∀ i : Nat, i < w.length → getM g none (pl.x + pl.dx * i) (pl.y + pl.dy * i) = none) ∧
  (∀ i : Nat, ∀ h : i < w.length,
    getM gfin none (pl.x + pl.dx * i) (pl.y + pl.dy * i) = some (w.get ⟨i, h⟩))

/-- Two placed words occupy no common cell. -/
def cellDisjoint (a b : Placement × List Char) : Prop :=
  ∀ c ∈ plCells a, c ∉ plCells b

/-- The puzzle exhibits direction class `t`: some answer is spelt along
some straight line of that class. -/
def exhibitsClass (p : Puzzle) (t : Char) : Bool :=
  p.answers.any fun a =>
    (cellsList p.size).any fun st =>
      DIRS.any fun d =>
        d.ty == t && spellsAtB p.grid p.size a (st.1 : Int) (st.2 : Int) d.dx d.dy

/-- Count of the committed (non-`'.'`) cells of a script grid.  Under
strict never-overwrite placement each committed word would add exactly
its length here. -/
def nonDotCount (g : GridS) : Nat :=
  (g.map (fun row => (row.filter (fun c => !(c == '.'))).length)).sum

/-- Substring test (for what an error message reports). -/
def containsSub (msg pat : List Char) : Bool :=
  (List.range (msg.length + 1)).any fun i => (msg.drop i).take pat.length == pat

/-! ### Bent-path vocabulary -/

/-- The steps between consecutive path cells. -/
def stepDiffs : List (Int × Int) → List (Int × Int)
  | [] => []
  | [_] => []
  | a :: b :: rest => (b.1 - a.1, b.2 - a.2) :: stepDiffs (b :: rest)

/-- Number of direction changes along a step sequence. -/
def countTurns : List (Int × Int) → Nat
  | [] => 0
  | [_] => 0
  | a :: b :: rest => (if a ≠ b then 1 else 0) + countTurns (b :: rest)

/-- No duplicate cells. -/
def nodupB : List (Int × Int) → Bool
  | [] => true
  | p :: rest => !rest.contains p && nodupB rest

/-- Cell/letter compatibility along a path (empty or already the needed
letter). -/
def compatB (g : GridS) : List (Int × Int) → List Char → Bool
  | [], [] => true
  | p :: ps, c :: cs => (getS g p.1 p.2 == '.' || getS g p.1 p.2 == c) && compatB g ps cs
  | _, _ => false

/-- A valid bent path for `w` in grid `g` within turn budget `T`:
right length, all cells distinct and in bounds, consecutive cells one
grid step apart, at most `T` turns, and every cell compatible. -/
def okPathB (g : GridS) (N : Nat) (w : List Char) (p : List (Int × Int)) (T : Nat) : Bool :=
  decide (p.length = w.length) && nodupB p &&
    p.all (fun c => inBoundsB c.1 c.2 N) &&
    (stepDiffs p).all (fun dd => DIRS2.contains dd) &&
    decide (countTurns (stepDiffs p) ≤ T) &&
    compatB g p w

/-! ### Concrete inputs used by witnesses and counterexamples -/

/-- A sample date. -/
def dEx : List Char := "2025-01-02".toList

/-- Six short distinct normalized words: every build attempt places them
easily. -/
def wsEx : List (List Char) :=
  ["ABLE".toList, "BAKER".toList, "CHESS".toList, "DELTA".toList,
   "EAGLE".toList, "FABLE".toList]

/-- Six distinct 13-letter words: none fits a 12 × 12 grid, so every
attempt fails. -/
def ws13 : List (List Char) :=
  ["ABCDEFGHIJKLM".toList, "BCDEFGHIJKLMN".toList, "CDEFGHIJKLMNO".toList,
   "DEFGHIJKLMNOP".toList, "EFGHIJKLMNOPQ".toList, "FGHIJKLMNOPQR".toList]

/-- Six distinct 12-letter words: each fills a whole row, column or
diagonal, so after the first horizontal placement no vertical or diagonal
placement remains possible. -/
def ws12 : List (List Char) :=
  ["ABCDEFGHIJKL".toList, "BCDEFGHIJKLM".toList, "CDEFGHIJKLMN".toList,
   "DEFGHIJKLMNO".toList, "EFGHIJKLMNOP".toList, "FGHIJKLMNOPQ".toList]

/-- A 2 × 2 script grid with one letter already placed at `(1, 0)` and
two blockers: the only way to place `"AB"` runs through the occupied
`'B'` cell. -/
def g2 : GridS := [['.', 'B'], ['X', 'Y']]

/-- Another sample date. -/
def dC4 : List Char := "2025-01-01".toList

/-- The puzzle the generator builds for `dEx` / `wsEx` (attempt 0
succeeds; the fallback value is never used). -/
def pEx : Puzzle :=
  match generatePuzzleForDate dEx wsEx with
  | .ok p => p
  | .error _ => ⟨[], 0, [], []⟩

/-- The puzzle the generator builds for `dC4` / `ws12`. -/
def pC3 : Puzzle :=
  match generatePuzzleForDate dC4 ws12 with
  | .ok p => p
  | .error _ => ⟨[], 0, [], []⟩

/-- The `usedTypes` of attempt 0 for `dEx` / `wsEx`. -/
def tysEx : List Char := (runTypes dEx wsEx 0).getD []

/-- A corpus with only five eligible words. -/
def rawEx5 : List Char := "able\nbaker\nchess\ndelta\neagle\nox,it\n".toList

/-- An empty 12 × 12 generator grid. -/
def emptyGrid12 : Grid := List.replicate 12 (List.replicate 12 none)

deriving instance DecidableEq for Except

/-- Total number of random letters the validator draws while padding the
given (already normalized) rows to width `N`. -/
def padCount (N : Nat) (rows : List (List Char)) : Nat :=
  (rows.map (fun r => N - r.length)).sum

/-- An 11-row artifact declaring size 12, for the validator claims. -/
def jEx : RawPuzzle :=
  ⟨some "  Theme ".toList, some 12, some (List.replicate 11 "ABC".toList),
   some ["ABC".toList]⟩

/-- A 2 × 2 empty script grid for the bent-path witness. -/
def gBent : GridS := [['.', '.'], ['.', '.']]

/-- A one-turn bent path for `"ABC"` in `gBent`. -/
def pBent : List (Int × Int) := [(0, 0), (1, 0), (1, 1)]

/-! ## Basic arithmetic facts about the PRNG -/

theorem U32_pos : 0 < U32 := by norm_num [U32]

theorem xor_lt_U32 {a b : Nat} (ha : a < U32) (hb : b < U32) : Nat.xor a b < U32 := by
  have h : U32 = 2 ^ 32 := by norm_num [U32]
  rw [h] at ha hb ⊢
  exact Nat.xor_lt_two_pow ha hb

theorem shiftRight_le_self (a k : Nat) : a >>> k ≤ a := by
  rw [Nat.shiftRight_eq_div_pow]
  exact Nat.div_le_self _ _

theorem mstep_fst_lt (s : Nat) : (mstep s).1 < U32 := by
  simp only [mstep]
  exact Nat.mod_lt _ U32_pos

theorem mstep_snd_lt (s : Nat) : (mstep s).2 < U32 := by
  have h1 : ∀ a b : Nat, imul a b < U32 := fun a b => Nat.mod_lt _ U32_pos
  have h2 : ∀ a : Nat, a % U32 < U32 := fun a => Nat.mod_lt _ U32_pos
  simp only [mstep]
  refine xor_lt_U32 (xor_lt_U32 (h1 _ _) (h2 _)) ?_
  exact lt_of_le_of_lt (shiftRight_le_self _ _) (xor_lt_U32 (h1 _ _) (h2 _))

theorem randIdx_snd_lt (s : Nat) {n : Nat} (hn : 0 < n) : (randIdx s n).2 < n := by
  simp only [randIdx]
  rw [Nat.div_lt_iff_lt_mul U32_pos]
  calc (mstep s).2 * n < U32 * n := Nat.mul_lt_mul_of_pos_right (mstep_snd_lt s) hn
    _ = n * U32 := Nat.mul_comm _ _

/-! ## Matrix access lemmas -/

theorem inB_iff {N : Nat} {x y : Int} :
    inB N x y = true ↔ 0 ≤ x ∧ x < (N : Int) ∧ 0 ≤ y ∧ y < (N : Int) := by
  simp [inB, and_assoc]

theorem length_setM {α : Type} (g : List (List α)) (x y : Int) (v : α) :
    (setM g x y v).length = g.length := by
  simp [setM]

theorem WFm_setM {α : Type} {N : Nat} {g : List (List α)} (h : WFm N g) (x y : Int)
    (v : α) : WFm N (setM g x y v) := by
  obtain ⟨hl, hr⟩ := h
  rcases Nat.lt_or_ge y.toNat g.length with hy | hy
  · have hrow : g.getD y.toNat [] = g[y.toNat] := by
      rw [List.getD_eq_getElem?_getD, List.getElem?_eq_getElem hy]
      rfl
    refine ⟨by simp [setM, hl], ?_⟩
    intro r hrm
    simp only [setM, hrow] at hrm
    rcases List.mem_or_eq_of_mem_set hrm with hm | he
    · exact hr r hm
    · subst he
      rw [List.length_set]
      exact hr _ (List.getElem_mem hy)
  · have : setM g x y v = g := by
      simp only [setM]
      exact List.set_eq_of_length_le (by omega)
    rw [this]
    exact ⟨hl, hr⟩

theorem getM_eq {α : Type} (g : List (List α)) (d : α) (x y : Int) :
    getM g d x y = (g[y.toNat]?.getD [])[x.toNat]?.getD d := by
  simp [getM, List.getD_eq_getElem?_getD]

theorem getM_setM_self {α : Type} {N : Nat} {g : List (List α)} (h : WFm N g)
    {x y : Int} (hx0 : 0 ≤ x) (hxN : x < (N : Int)) (hy0 : 0 ≤ y) (hyN : y < (N : Int))
    (v d : α) : getM (setM g x y v) d x y = v := by
  obtain ⟨hl, hr⟩ := h
  have hy : y.toNat < g.length := by omega
  have hrow : g.getD y.toNat [] = g[y.toNat] := by
    rw [List.getD_eq_getElem?_getD, List.getElem?_eq_getElem hy]
    rfl
  have hx : x.toNat < (g[y.toNat]).length := by
    have := hr _ (List.getElem_mem hy)
    omega
  rw [getM_eq]
  simp only [setM]
  rw [List.getElem?_set, if_pos rfl, if_pos hy]
  simp only [Option.getD_some]
  rw [hrow, List.getElem?_set, if_pos rfl, if_pos hx]
  rfl

theorem getM_setM_ne {α : Type} {g : List (List α)} {x y x' y' : Int}
    (hx0 : 0 ≤ x) (hy0 : 0 ≤ y) (hx0' : 0 ≤ x') (hy0' : 0 ≤ y')
    (hne : (x', y') ≠ (x, y)) (v d : α) :
    getM (setM g x y v) d x' y' = getM g d x' y' := by
  rw [getM_eq, getM_eq]
  simp only [setM]
  by_cases hyy : y.toNat = y'.toNat
  · -- same row index, hence y' = y and x' ≠ x
    have hxx : x.toNat ≠ x'.toNat := by
      intro hc
      refine hne ?_
      have hx : x' = x := by omega
      have hy : y' = y := by omega
      rw [hx, hy]
    rw [List.getElem?_set, if_pos hyy]
    rcases Nat.lt_or_ge y.toNat g.length with hy | hy
    · rw [if_pos hy]
      simp only [Option.getD_some]
      rw [List.getElem?_set, if_neg hxx]
      have hgg : g.getD y.toNat [] = g[y'.toNat]?.getD [] := by
        rw [List.getD_eq_getElem?_getD, hyy]
      rw [hgg]
    · rw [if_neg (by omega)]
      rw [List.getElem?_eq_none (show g.length ≤ y'.toNat by omega)]
  · rw [List.getElem?_set, if_neg hyy]

/-! ## The seeded shuffle is a permutation -/

theorem swapL_perm {α : Type} [DecidableEq α] (l : List α) (i j : Nat) :
    List.Perm (swapL l i j) l := by
  unfold swapL
  cases hvi : l[i]? with
  | none => exact List.Perm.refl l
  | some vi =>
    cases hvj : l[j]? with
    | none => exact List.Perm.refl l
    | some vj =>
      have hi : i < l.length := by
        by_contra hc
        rw [List.getElem?_eq_none (by omega)] at hvi
        exact Option.noConfusion hvi
      have hj : j < l.length := by
        by_contra hc
        rw [List.getElem?_eq_none (by omega)] at hvj
        exact Option.noConfusion hvj
      have hvi' : l[i] = vi := by
        rw [List.getElem?_eq_getElem hi] at hvi
        exact Option.some.inj hvi
      have hvj' : l[j] = vj := by
        rw [List.getElem?_eq_getElem hj] at hvj
        exact Option.some.inj hvj
      rw [List.perm_iff_count]
      intro a
      have hj2 : j < (l.set i vj).length := by
        rw [List.length_set]
        exact hj
      have hmid : (l.set i vj)[j] = vj := by
        by_cases hij : i = j
        · subst hij
          exact List.getElem_set_self _
        · rw [List.getElem_set_ne hij]
          exact hvj'
      rw [List.count_set vi a (l.set i vj) j hj2, List.count_set vj a l i hi, hmid, hvi']
      have hpos : vi = a → 0 < List.count a l := fun hva =>
        List.count_pos_iff.mpr (hva ▸ (hvi' ▸ List.getElem_mem hi))
      by_cases hva : (vi == a) = true
      · by_cases hvb : (vj == a) = true
        · rw [if_pos hva, if_pos hvb]
          have := hpos (beq_iff_eq.mp hva)
          omega
        · rw [if_pos hva, if_neg hvb]
          have := hpos (beq_iff_eq.mp hva)
          omega
      · by_cases hvb : (vj == a) = true
        · rw [if_neg hva, if_pos hvb]
          omega
        · rw [if_neg hva, if_neg hvb]
          omega

theorem shuffleGo_perm {α : Type} [DecidableEq α] :
    ∀ (n : Nat) (a : List α) (s : Nat), List.Perm (shuffleGo a s n).1 a
  | 0, a, _ => List.Perm.refl a
  | Nat.succ im, a, s => by
    simp only [shuffleGo]
    exact List.Perm.trans (shuffleGo_perm im _ _) (swapL_perm a (im + 1) _)

theorem seededShuffle_perm {α : Type} [DecidableEq α] (a : List α) (s : Nat) :
    List.Perm (seededShuffle a s).1 a := by
  unfold seededShuffle
  cases a.length with
  | zero => exact List.Perm.refl a
  | succ n => exact shuffleGo_perm n a s

/-! ## Straight placement: `canPlace` and the write loop -/

theorem canPlace_spec {g : Grid} {N : Nat} :
    ∀ (w : List Char) (x y dx dy : Int), canPlace g N w x y dx dy = true →
      ∀ i : Nat, i < w.length →
        inB N (x + dx * i) (y + dy * i) = true ∧
        getM g none (x + dx * i) (y + dy * i) = none := by
  intro w
  induction w with
  | nil => intro x y dx dy _ i hi; simp at hi
  | cons c rest ih =>
    intro x y dx dy hcp i hi
    simp only [canPlace, Bool.and_eq_true] at hcp
    obtain ⟨⟨hin, hnone⟩, hrest⟩ := hcp
    cases i with
    | zero =>
      simpa using ⟨hin, Option.isNone_iff_eq_none.mp hnone⟩
    | succ n =>
      have hsh : ∀ d0 p0 : Int, p0 + d0 * ((n : Int) + 1) = (p0 + d0) + d0 * (n : Int) := by
        intro d0 p0
        ring
      have hn : n < rest.length := by simpa using hi
      have := ih (x + dx) (y + dy) dx dy hrest n hn
      push_cast
      rw [hsh dx x, hsh dy y]
      exact this

theorem posAt_inj {dx dy : Int} (hnz : ¬(dx = 0 ∧ dy = 0)) {x y : Int} {i j : Nat}
    (h : x + dx * i = x + dx * j ∧ y + dy * i = y + dy * j) : i = j := by
  obtain ⟨h1, h2⟩ := h
  have hx : dx * ((i : Int) - j) = 0 := by ring_nf; linarith
  have hy : dy * ((i : Int) - j) = 0 := by ring_nf; linarith
  rcases mul_eq_zero.mp hx with hdx | hij
  · rcases mul_eq_zero.mp hy with hdy | hij
    · exact absurd ⟨hdx, hdy⟩ hnz
    · omega
  · omega

theorem dir_nonzero {d : Dir} (hd : d ∈ DIRS) : ¬(d.dx = 0 ∧ d.dy = 0) := by
  fin_cases hd <;> simp

theorem writeWord_WFm {N : Nat} :
    ∀ (w : List Char) (g : Grid) (x y dx dy : Int), WFm N g →
      WFm N (writeWord g w x y dx dy) := by
  intro w
  induction w with
  | nil => intro g x y dx dy h; exact h
  | cons c rest ih =>
    intro g x y dx dy h
    exact ih _ _ _ _ _ (WFm_setM h x y (some c))

theorem getM_writeWord_off (N : Nat) :
    ∀ (w : List Char) (g : Grid) (x y dx dy : Int),
      (∀ i : Nat, i < w.length → inB N (x + dx * i) (y + dy * i) = true) →
      ∀ p q : Int, 0 ≤ p → 0 ≤ q →
        (∀ i : Nat, i < w.length → (p, q) ≠ (x + dx * i, y + dy * i)) →
        getM (writeWord g w x y dx dy) none p q = getM g none p q := by
  intro w
  induction w with
  | nil => intro g x y dx dy _ p q _ _ _; rfl
  | cons c rest ih =>
    intro g x y dx dy hb p q hp hq hoff
    have hsh : ∀ d0 p0 : Int, ∀ n : Nat, (p0 + d0) + d0 * (n : Int) = p0 + d0 * ((n : Int) + 1) := by
      intro d0 p0 n
      ring
    have hb0 := hb 0 (by simp)
    simp only [Nat.cast_zero, mul_zero, add_zero] at hb0
    rw [inB_iff] at hb0
    simp only [writeWord]
    rw [ih (setM g x y (some c)) (x + dx) (y + dy) dx dy ?_ p q hp hq ?_]
    · exact getM_setM_ne (by omega) (by omega) hp hq
        (by simpa using hoff 0 (by simp)) (some c) none
    · intro i hi
      rw [hsh dx x i, hsh dy y i]
      have := hb (i + 1) (by simpa using Nat.succ_lt_succ hi)
      push_cast at this ⊢
      exact this
    · intro i hi
      rw [hsh dx x i, hsh dy y i]
      have := hoff (i + 1) (by simpa using Nat.succ_lt_succ hi)
      push_cast at this ⊢
      exact this

theorem getM_writeWord_at (N : Nat) {dx dy : Int} (hnz : ¬(dx = 0 ∧ dy = 0)) :
    ∀ (w : List Char) (g : Grid) (x y : Int), WFm N g →
      (∀ i : Nat, i < w.length → inB N (x + dx * i) (y + dy * i) = true) →
      ∀ i : Nat, ∀ h : i < w.length,
        getM (writeWord g w x y dx dy) none (x + dx * i) (y + dy * i) =
          some (w.get ⟨i, h⟩) := by
  intro w
  induction w with
  | nil => intro g x y _ _ i h; simp at h
  | cons c rest ih =>
    intro g x y hwf hb i h
    have hsh : ∀ d0 p0 : Int, ∀ n : Nat, (p0 + d0) + d0 * (n : Int) = p0 + d0 * ((n : Int) + 1) := by
      intro d0 p0 n
      ring
    have hb0 := hb 0 (by simp)
    simp only [Nat.cast_zero, mul_zero, add_zero] at hb0
    rw [inB_iff] at hb0
    cases i with
    | zero =>
      simp only [writeWord, Nat.cast_zero, mul_zero, add_zero]
      rw [getM_writeWord_off N rest (setM g x y (some c)) (x + dx) (y + dy) dx dy ?_ x y
        (by omega) (by omega) ?_]
      · exact getM_setM_self hwf (by omega) (by omega) (by omega) (by omega) (some c) none
      · intro j hj
        rw [hsh dx x j, hsh dy y j]
        have := hb (j + 1) (by simpa using Nat.succ_lt_succ hj)
        push_cast at this ⊢
        exact this
      · intro j hj
        intro hc
        have hc' : x + dx * ((j : Int) + 1) = x ∧ y + dy * ((j : Int) + 1) = y := by
          rw [hsh dx x j, hsh dy y j] at hc
          exact ⟨(Prod.mk.injEq _ _ _ _ ▸ hc).1.symm, (Prod.mk.injEq _ _ _ _ ▸ hc).2.symm⟩
        have : j + 1 = 0 := by
          refine @posAt_inj dx dy hnz x y (j + 1) 0 ?_
          push_cast
          constructor
          · rw [hc'.1]; ring
          · rw [hc'.2]; ring
        omega
    | succ n =>
      have hn : n < rest.length := by simpa using h
      simp only [writeWord]
      have hres := ih (setM g x y (some c)) (x + dx) (y + dy)
        (WFm_setM hwf x y (some c)) ?_ n hn
      · push_cast
        rw [show x + dx * ((n : Int) + 1) = (x + dx) + dx * (n : Int) by ring,
            show y + dy * ((n : Int) + 1) = (y + dy) + dy * (n : Int) by ring]
        simpa using hres
      · intro j hj
        rw [hsh dx x j, hsh dy y j]
        have := hb (j + 1) (by simpa using Nat.succ_lt_succ hj)
        push_cast at this ⊢
        exact this

theorem getM_writeWord_keep {N : Nat} {g : Grid} {w : List Char} {x y dx dy : Int}
    (hc : canPlace g N w x y dx dy = true) {p q : Int} (hp : 0 ≤ p) (hq : 0 ≤ q)
    {c : Char} (hsome : getM g none p q = some c) :
    getM (writeWord g w x y dx dy) none p q = some c := by
  rw [getM_writeWord_off N w g x y dx dy (fun i hi => (canPlace_spec w x y dx dy hc i hi).1)
    p q hp hq ?_]
  · exact hsome
  · intro i hi hpq
    obtain ⟨h1, h2⟩ := Prod.mk.inj hpq
    have hnone := (canPlace_spec w x y dx dy hc i hi).2
    rw [← h1, ← h2] at hnone
    rw [hsome] at hnone
    exact Option.noConfusion hnone

/-! ## The `placeWord` try loop -/

theorem placeWordGo_none {N : Nat} {w : List Char} {directions : List Dir} :
    ∀ (fuel : Nat) (g : Grid) (s : Nat) (g' : Grid) (s' : Nat),
      placeWordGo N w directions g s fuel = (none, g', s') → g' = g := by
  intro fuel
  induction fuel with
  | zero =>
    intro g s g' s' h
    simp only [placeWordGo, Prod.ext_iff] at h
    exact h.2.1.symm
  | succ fuel ih =>
    intro g s g' s' h
    simp only [placeWordGo] at h
    split at h
    · simp [Prod.ext_iff] at h
    · exact ih _ _ _ _ h

theorem placeWordGo_some {N : Nat} {w : List Char} {directions : List Dir}
    (hne : directions ≠ []) (hN : 0 < N) :
    ∀ (fuel : Nat) (g : Grid) (s : Nat) (ty : Char) (g' : Grid) (s' : Nat),
      placeWordGo N w directions g s fuel = (some ty, g', s') →
      ∃ (x y : Int) (d : Dir), d ∈ directions ∧ d.ty = ty ∧
        0 ≤ x ∧ x < (N : Int) ∧ 0 ≤ y ∧ y < (N : Int) ∧
        canPlace g N w x y d.dx d.dy = true ∧
        g' = writeWord g w x y d.dx d.dy := by
  intro fuel
  induction fuel with
  | zero =>
    intro g s ty g' s' h
    simp [placeWordGo, Prod.ext_iff] at h
  | succ fuel ih =>
    intro g s ty g' s' h
    simp only [placeWordGo] at h
    split at h
    case isTrue hcp =>
      simp only [Prod.ext_iff, Option.some.injEq] at h
      obtain ⟨hty, hg, _⟩ := h
      have hlen : 0 < directions.length := List.length_pos.mpr hne
      have hidx := randIdx_snd_lt s hlen
      have hgetd : directions.getD (randIdx s directions.length).2 ⟨1, 0, 'H'⟩ =
          directions[(randIdx s directions.length).2] := by
        rw [List.getD_eq_getElem?_getD, List.getElem?_eq_getElem hidx]
        rfl
      refine ⟨((randIdx (randIdx s directions.length).1 N).2 : Int),
        ((randIdx (randIdx (randIdx s directions.length).1 N).1 N).2 : Int),
        directions.getD (randIdx s directions.length).2 ⟨1, 0, 'H'⟩,
        ?_, hty, ?_, ?_, ?_, ?_, hcp, hg.symm⟩
      · rw [hgetd]
        exact List.getElem_mem hidx
      · exact Int.ofNat_nonneg _
      · exact_mod_cast randIdx_snd_lt _ hN
      · exact Int.ofNat_nonneg _
      · exact_mod_cast randIdx_snd_lt _ hN
    case isFalse =>
      exact ih _ _ _ _ _ h

theorem placeWord_none {g : Grid} {N : Nat} {w : List Char} {s : Nat}
    {desired : Option Char} {maxTries : Nat} {g' : Grid} {s' : Nat}
    (h : placeWord g N w s desired maxTries = (none, g', s')) : g' = g :=
  placeWordGo_none maxTries g s g' s' h

theorem DIRS_ne : DIRS ≠ [] := by decide

theorem dirsFor_sub {desired : Option Char} {d : Dir} (h : d ∈ dirsFor desired) :
    d ∈ DIRS := by
  cases desired with
  | none => exact h
  | some t => exact (List.mem_filter.mp h).1

theorem dirsFor_ty {t : Char} {d : Dir} (h : d ∈ dirsFor (some t)) : d.ty = t := by
  have := (List.mem_filter.mp h).2
  simpa using this

theorem placeWord_some_spec {g : Grid} {N : Nat} {w : List Char} {s : Nat}
    {desired : Option Char} {maxTries : Nat} {ty : Char} {g' : Grid} {s' : Nat}
    (hne : dirsFor desired ≠ []) (hN : 0 < N)
    (h : placeWord g N w s desired maxTries = (some ty, g', s')) :
    ∃ (x y : Int) (d : Dir), d ∈ dirsFor desired ∧ d.ty = ty ∧
      0 ≤ x ∧ x < (N : Int) ∧ 0 ≤ y ∧ y < (N : Int) ∧
      canPlace g N w x y d.dx d.dy = true ∧
      g' = writeWord g w x y d.dx d.dy :=
  placeWordGo_some hne hN maxTries g s ty g' s' h

theorem placeOne_spec {g : Grid} {N : Nat} {w : List Char} {s : Nat}
    {tgt : Option Char} {ty : Char} {g' : Grid} {s' : Nat}
    (hne : dirsFor tgt ≠ []) (hN : 0 < N)
    (h : placeOne g N w s tgt = some (ty, g', s')) :
    ∃ (x y : Int) (d : Dir), d ∈ DIRS ∧ d.ty = ty ∧
      0 ≤ x ∧ x < (N : Int) ∧ 0 ≤ y ∧ y < (N : Int) ∧
      canPlace g N w x y d.dx d.dy = true ∧
      g' = writeWord g w x y d.dx d.dy := by
  cases tgt with
  | none =>
    simp only [placeOne] at h
    rcases hpw : placeWord g N w s none 800 with ⟨oty, g1, s1⟩
    rw [hpw] at h
    cases oty with
    | none => simp at h
    | some ty0 =>
      simp only [Option.some.injEq, Prod.ext_iff] at h
      obtain ⟨h1, h2, h3⟩ := h
      subst h1 h2 h3
      obtain ⟨x, y, d, hd, rest⟩ := placeWord_some_spec hne hN hpw
      exact ⟨x, y, d, dirsFor_sub hd, rest⟩
  | some t =>
    simp only [placeOne] at h
    rcases hpw : placeWord g N w s (some t) 800 with ⟨oty, g1, s1⟩
    rw [hpw] at h
    cases oty with
    | some ty0 =>
      simp only [Option.some.injEq, Prod.ext_iff] at h
      obtain ⟨h1, h2, h3⟩ := h
      subst h1 h2 h3
      obtain ⟨x, y, d, hd, rest⟩ := placeWord_some_spec hne hN hpw
      exact ⟨x, y, d, dirsFor_sub hd, rest⟩
    | none =>
      have hg1 : g1 = g := placeWord_none hpw
      rw [hg1] at h
      dsimp only at h
      rcases hpw2 : placeWord g N w s1 none 800 with ⟨oty2, g2, s2⟩
      rw [hpw2] at h
      cases oty2 with
      | none => simp at h
      | some ty2 =>
        simp only [Option.some.injEq, Prod.ext_iff] at h
        obtain ⟨h1, h2, h3⟩ := h
        subst h1 h2 h3
        obtain ⟨x, y, d, hd, rest⟩ := placeWord_some_spec (show dirsFor none ≠ [] by decide) hN hpw2
        exact ⟨x, y, d, dirsFor_sub hd, rest⟩

/-! ## The placement stage invariant -/

theorem plCells_mem {pl : Placement} {w : List Char} {c : Int × Int} :
    c ∈ plCells (pl, w) ↔
      ∃ i : Nat, i < w.length ∧ (pl.x + pl.dx * i, pl.y + pl.dy * i) = c := by
  simp [plCells, lineCells, posAt]

theorem placeList_mono {N : Nat} :
    ∀ (items : List (List Char × Option Char)) (g : Grid) (s : Nat)
      (g' : Grid) (s' : Nat) (tys : List Char),
      placeList N g s items = some (g', s', tys) → 0 < N →
      (∀ wt ∈ items, dirsFor wt.2 ≠ []) →
      ∀ p q : Int, 0 ≤ p → 0 ≤ q → ∀ c : Char,
        getM g none p q = some c → getM g' none p q = some c := by
  intro items
  induction items with
  | nil =>
    intro g s g' s' tys h _ _ p q _ _ c hc
    simp only [placeList, Option.some.injEq, Prod.ext_iff] at h
    rw [← h.1]
    exact hc
  | cons wt rest ih =>
    intro g s g' s' tys h hN hne p q hp hq c hc
    obtain ⟨w, tgt⟩ := wt
    simp only [placeList] at h
    rcases hpo : placeOne g N w s tgt with _ | ⟨ty, g1, s1⟩ <;> rw [hpo] at h
    · simp at h
    · dsimp only at h
      rcases hpl : placeList N g1 s1 rest with _ | ⟨g2, s2, tys0⟩ <;> rw [hpl] at h
      · simp at h
      · dsimp only at h
        simp only [Option.some.injEq, Prod.ext_iff] at h
        obtain ⟨hg2, _⟩ := h
        subst hg2
        obtain ⟨x, y, d, _, _, _, _, _, _, hcp, hg1w⟩ :=
          placeOne_spec (hne (w, tgt) (by simp)) hN hpo
        subst hg1w
        exact ih _ s1 g2 s2 tys0 hpl hN (fun a ha => hne a (by simp [ha]))
          p q hp hq c (getM_writeWord_keep hcp hp hq hc)

theorem placeList_spec {N : Nat} :
    ∀ (items : List (List Char × Option Char)) (g : Grid) (s : Nat)
      (g' : Grid) (s' : Nat) (tys : List Char),
      placeList N g s items = some (g', s', tys) →
      WFm N g → 0 < N → (∀ wt ∈ items, dirsFor wt.2 ≠ []) →
      WFm N g' ∧ tys.length = items.length ∧
      ∃ pls : List Placement, pls.length = items.length ∧
        (∀ k : Nat, ∀ hk : k < items.length, ∀ hk2 : k < pls.length, ∀ hk3 : k < tys.length,
          placedOK g g' N (items[k]).1 pls[k] ∧ (pls[k]).ty = tys[k]) ∧
        List.Pairwise cellDisjoint (pls.zip (items.map Prod.fst)) := by
  intro items
  induction items with
  | nil =>
    intro g s g' s' tys h hwf _ _
    simp only [placeList, Option.some.injEq, Prod.ext_iff] at h
    obtain ⟨hg, _, hty⟩ := h
    subst hg
    subst hty
    refine ⟨hwf, rfl, [], rfl, ?_, by simp⟩
    intro k hk
    simp at hk
  | cons wt rest ih =>
    intro g s g' s' tys h hwf hN hne
    obtain ⟨w, tgt⟩ := wt
    simp only [placeList] at h
    rcases hpo : placeOne g N w s tgt with _ | ⟨ty, g1, s1⟩ <;> rw [hpo] at h
    · simp at h
    · dsimp only at h
      rcases hpl : placeList N g1 s1 rest with _ | ⟨g2, s2, tys0⟩ <;> rw [hpl] at h
      · simp at h
      · dsimp only at h
        simp only [Option.some.injEq, Prod.ext_iff] at h
        obtain ⟨hg2, _, htys⟩ := h
        subst hg2
        subst htys
        obtain ⟨x, y, d, hd, hdty, hx0, hxN, hy0, hyN, hcp, hg1w⟩ :=
          placeOne_spec (hne (w, tgt) (by simp)) hN hpo
        obtain ⟨ddx, ddy, dty⟩ := d
        simp only at hdty hcp hg1w
        have hnz : ¬(ddx = 0 ∧ ddy = 0) := dir_nonzero hd
        have hb : ∀ i : Nat, i < w.length → inB N (x + ddx * i) (y + ddy * i) = true :=
          fun i hi => (canPlace_spec w x y ddx ddy hcp i hi).1
        have hempty : ∀ i : Nat, i < w.length →
            getM g none (x + ddx * i) (y + ddy * i) = none :=
          fun i hi => (canPlace_spec w x y ddx ddy hcp i hi).2
        have hwf1 : WFm N g1 := hg1w ▸ writeWord_WFm w g x y ddx ddy hwf
        obtain ⟨hwf', hlen0, pls0, hlen0', hprop0, hpair0⟩ :=
          ih g1 s1 g2 s2 tys0 hpl hwf1 hN (fun a ha => hne a (by simp [ha]))
        have hkeep : ∀ p q : Int, 0 ≤ p → 0 ≤ q → ∀ c : Char,
            getM g none p q = some c → getM g1 none p q = some c := by
          intro p q hp hq c hc
          rw [hg1w]
          exact getM_writeWord_keep hcp hp hq hc
        have hmono1 : ∀ p q : Int, 0 ≤ p → 0 ≤ q → ∀ c : Char,
            getM g1 none p q = some c → getM g2 none p q = some c :=
          fun p q hp hq c hc => placeList_mono rest g1 s1 g2 s2 tys0 hpl hN
            (fun a ha => hne a (by simp [ha])) p q hp hq c hc
        have hat : ∀ i : Nat, ∀ hi : i < w.length,
            getM g1 none (x + ddx * i) (y + ddy * i) = some (w.get ⟨i, hi⟩) := by
          intro i hi
          rw [hg1w]
          exact getM_writeWord_at N hnz w g x y hwf hb i hi
        have hat2 : ∀ i : Nat, ∀ hi : i < w.length,
            getM g2 none (x + ddx * i) (y + ddy * i) = some (w.get ⟨i, hi⟩) := by
          intro i hi
          have hbi := hb i hi
          rw [inB_iff] at hbi
          exact hmono1 _ _ (by omega) (by omega) _ (hat i hi)
        refine ⟨hwf', by simpa using hlen0,
          (⟨x, y, ddx, ddy, dty⟩ : Placement) :: pls0, by simpa using hlen0', ?_, ?_⟩
        · intro k hk hk2 hk3
          cases k with
          | zero =>
            simp only [List.getElem_cons_zero]
            refine ⟨⟨hd, hb, hempty, ?_⟩, hdty⟩
            intro i hi
            exact hat2 i hi
          | succ k =>
            have hk' : k < rest.length := by simpa using hk
            have hk2' : k < pls0.length := by simpa using hk2
            have hk3' : k < tys0.length := by simpa using hk3
            obtain ⟨⟨hdmem, hbnd, hemp, hlet⟩, htyk⟩ := hprop0 k hk' hk2' hk3'
            simp only [List.getElem_cons_succ]
            refine ⟨⟨hdmem, hbnd, ?_, hlet⟩, htyk⟩
            intro i hi
            rcases hgc : getM g none ((pls0[k]).x + (pls0[k]).dx * i)
                ((pls0[k]).y + (pls0[k]).dy * i) with _ | c
            · rfl
            · have hbi := hbnd i hi
              rw [inB_iff] at hbi
              have := hkeep _ _ (by omega) (by omega) c hgc
              rw [hemp i hi] at this
              exact Option.noConfusion this
        · rw [List.map_cons, List.zip_cons_cons]
          refine List.pairwise_cons.mpr ⟨?_, hpair0⟩
          intro b hb2
          obtain ⟨k, hkl, hbk⟩ := List.mem_iff_getElem.mp hb2
          intro cc hcc1 hcc2
          obtain ⟨i, hi, hci⟩ := plCells_mem.mp hcc1
          have hkr : k < rest.length := by
            rw [List.length_zip, List.length_map] at hkl
            omega
          have hkp : k < pls0.length := by omega
          have hkt : k < tys0.length := by omega
          have hbk' : b = (pls0[k], (rest[k]).1) := by
            rw [← hbk]
            rw [List.getElem_zip]
            simp
          subst hbk'
          obtain ⟨j, hj, hcj⟩ := plCells_mem.mp hcc2
          obtain ⟨⟨_, hbnd2, hemp2, _⟩, _⟩ := hprop0 k hkr hkp hkt
          have hs1 := hat i hi
          have hn1 := hemp2 j hj
          obtain ⟨e1, e2⟩ := Prod.mk.inj (hci.trans hcj.symm)
          dsimp only at e1 e2 hj
          rw [← e1, ← e2] at hn1
          rw [hs1] at hn1
          exact Option.noConfusion hn1

/-! ## The random-letter fill -/

theorem randLetter_upper (s : Nat) : isUpper (randLetter s).2 = true := by
  have hlt : (randIdx s 26).2 < 26 := randIdx_snd_lt s (by omega)
  have : ∀ k : Nat, k < 26 → isUpper (Char.ofNat (65 + k)) = true := by decide
  exact this _ hlt

theorem fillRow_length : ∀ (row : List (Option Char)) (s : Nat),
    (fillRow row s).1.length = row.length := by
  intro row
  induction row with
  | nil => intro s; rfl
  | cons a rest ih =>
    intro s
    cases a with
    | some ch => simp [fillRow, ih]
    | none => simp [fillRow, ih]

theorem fillRow_some : ∀ (row : List (Option Char)) (s : Nat) (i : Nat) (c : Char),
    row[i]? = some (some c) → (fillRow row s).1[i]? = some c := by
  intro row
  induction row with
  | nil => intro s i c h; simp at h
  | cons a rest ih =>
    intro s i c h
    cases a with
    | some ch =>
      cases i with
      | zero =>
        simp at h
        simp [fillRow, h]
      | succ n =>
        simp only [List.getElem?_cons_succ] at h
        simpa [fillRow] using ih s n c h
    | none =>
      cases i with
      | zero => simp at h
      | succ n =>
        simp only [List.getElem?_cons_succ] at h
        simpa [fillRow] using ih (randLetter s).1 n c h

theorem fillRow_mem : ∀ (row : List (Option Char)) (s : Nat) (c : Char),
    c ∈ (fillRow row s).1 → some c ∈ row ∨ isUpper c = true := by
  intro row
  induction row with
  | nil => intro s c h; simp [fillRow] at h
  | cons a rest ih =>
    intro s c h
    cases a with
    | some ch =>
      simp only [fillRow, List.mem_cons] at h
      rcases h with h | h
      · exact Or.inl (by simp [h])
      · rcases ih s c h with h2 | h2
        · exact Or.inl (by simp [h2])
        · exact Or.inr h2
    | none =>
      simp only [fillRow, List.mem_cons] at h
      rcases h with h | h
      · exact Or.inr (h ▸ randLetter_upper s)
      · rcases ih (randLetter s).1 c h with h2 | h2
        · exact Or.inl (by simp [h2])
        · exact Or.inr h2

theorem fillRows_get : ∀ (g : Grid) (s : Nat) (yn : Nat), yn < g.length →
    ∃ s' : Nat, (fillRows g s).1[yn]? = some (fillRow (g[yn]?.getD []) s').1 := by
  intro g
  induction g with
  | nil => intro s yn h; simp at h
  | cons row rest ih =>
    intro s yn h
    cases yn with
    | zero => exact ⟨s, by simp [fillRows]⟩
    | succ n =>
      obtain ⟨s', hs'⟩ := ih (fillRow row s).2 n (by simpa using h)
      exact ⟨s', by simpa [fillRows] using hs'⟩

theorem fillRows_length : ∀ (g : Grid) (s : Nat), (fillRows g s).1.length = g.length := by
  intro g
  induction g with
  | nil => intro s; rfl
  | cons row rest ih => intro s; simp [fillRows, ih]

theorem fillRows_rowlen {N : Nat} : ∀ (g : Grid) (s : Nat),
    (∀ r ∈ g, r.length = N) → ∀ r ∈ (fillRows g s).1, r.length = N := by
  intro g
  induction g with
  | nil => intro s _ r hm; simp [fillRows] at hm
  | cons row rest ih =>
    intro s h r hm
    simp only [fillRows, List.mem_cons] at hm
    rcases hm with hm | hm
    · rw [hm, fillRow_length]
      exact h row (by simp)
    · exact ih (fillRow row s).2 (fun r2 h2 => h r2 (by simp [h2])) r hm

theorem fillRows_WFm {N : Nat} (g : Grid) (s : Nat) (h : WFm N g) :
    WFm N (fillRows g s).1 :=
  ⟨by rw [fillRows_length]; exact h.1, fillRows_rowlen g s h.2⟩

theorem fillRows_mem : ∀ (g : Grid) (s : Nat) (r : List Char), r ∈ (fillRows g s).1 →
    ∀ c ∈ r, (∃ r0 ∈ g, some c ∈ r0) ∨ isUpper c = true := by
  intro g
  induction g with
  | nil => intro s r hm; simp [fillRows] at hm
  | cons row rest ih =>
    intro s r hm c hc
    simp only [fillRows, List.mem_cons] at hm
    rcases hm with hm | hm
    · rcases fillRow_mem row s c (hm ▸ hc) with h2 | h2
      · exact Or.inl ⟨row, by simp, h2⟩
      · exact Or.inr h2
    · rcases ih (fillRow row s).2 r hm c hc with ⟨r0, hr0, hcr0⟩ | h2
      · exact Or.inl ⟨r0, by simp [hr0], hcr0⟩
      · exact Or.inr h2

theorem fillRows_some {g : Grid} {s : Nat} {x y : Int} {c : Char}
    (h : getM g none x y = some c) :
    getM (fillRows g s).1 '?' x y = c := by
  rw [getM_eq] at h ⊢
  rcases Nat.lt_or_ge y.toNat g.length with hyn | hyn
  · obtain ⟨s', hs'⟩ := fillRows_get g s y.toNat hyn
    rw [hs']
    simp only [Option.getD_some]
    rcases Nat.lt_or_ge x.toNat (g[y.toNat]?.getD []).length with hxn | hxn
    · have hrow : (g[y.toNat]?.getD [])[x.toNat]? = some (some c) := by
        rcases hx2 : (g[y.toNat]?.getD [])[x.toNat]? with _ | oc
        · rw [hx2] at h
          simp at h
        · rw [hx2] at h
          simp at h
          rw [h]
      have := fillRow_some (g[y.toNat]?.getD []) s' x.toNat c hrow
      rw [this]
      rfl
    · rw [List.getElem?_eq_none hxn] at h
      simp at h
  · rw [List.getElem?_eq_none hyn] at h
    simp at h

/-! ## Where grid values come from -/

theorem setM_mem {α : Type} {g : List (List α)} {x y : Int} {v : α} {r : List α}
    (hr : r ∈ setM g x y v) : ∀ c ∈ r, (∃ r0 ∈ g, c ∈ r0) ∨ c = v := by
  intro c hc
  simp only [setM] at hr
  rcases List.mem_or_eq_of_mem_set hr with hm | he
  · exact Or.inl ⟨r, hm, hc⟩
  · subst he
    rcases List.mem_or_eq_of_mem_set hc with hm2 | he2
    · rcases Nat.lt_or_ge y.toNat g.length with hy | hy
      · refine Or.inl ⟨g[y.toNat], List.getElem_mem hy, ?_⟩
        rw [List.getD_eq_getElem?_getD, List.getElem?_eq_getElem hy] at hm2
        exact hm2
      · rw [List.getD_eq_getElem?_getD, List.getElem?_eq_none hy] at hm2
        simp at hm2
    · exact Or.inr he2

theorem writeWord_mem : ∀ (w : List Char) (g : Grid) (x y dx dy : Int)
    (r : List (Option Char)), r ∈ writeWord g w x y dx dy → ∀ c ∈ r,
      (∃ r0 ∈ g, c ∈ r0) ∨ (∃ ch ∈ w, c = some ch) := by
  intro w
  induction w with
  | nil =>
    intro g x y dx dy r hr c hc
    exact Or.inl ⟨r, hr, hc⟩
  | cons a rest ih =>
    intro g x y dx dy r hr c hc
    simp only [writeWord] at hr
    rcases ih _ _ _ _ _ r hr c hc with ⟨r0, hr0, hc0⟩ | ⟨ch, hch, he⟩
    · rcases setM_mem hr0 c hc0 with h2 | h2
      · exact Or.inl h2
      · exact Or.inr ⟨a, by simp, h2⟩
    · exact Or.inr ⟨ch, by simp [hch], he⟩

theorem placeList_mem {N : Nat} :
    ∀ (items : List (List Char × Option Char)) (g : Grid) (s : Nat)
      (g' : Grid) (s' : Nat) (tys : List Char),
      placeList N g s items = some (g', s', tys) → 0 < N →
      (∀ wt ∈ items, dirsFor wt.2 ≠ []) →
      ∀ r ∈ g', ∀ c ∈ r,
        (∃ r0 ∈ g, c ∈ r0) ∨ (∃ wt ∈ items, ∃ ch ∈ wt.1, c = some ch) := by
  intro items
  induction items with
  | nil =>
    intro g s g' s' tys h _ _ r hr c hc
    simp only [placeList, Option.some.injEq, Prod.ext_iff] at h
    rw [← h.1] at hr
    exact Or.inl ⟨r, hr, hc⟩
  | cons wt rest ih =>
    intro g s g' s' tys h hN hne r hr c hc
    obtain ⟨w, tgt⟩ := wt
    simp only [placeList] at h
    rcases hpo : placeOne g N w s tgt with _ | ⟨ty, g1, s1⟩ <;> rw [hpo] at h
    · simp at h
    · dsimp only at h
      rcases hpl : placeList N g1 s1 rest with _ | ⟨g2, s2, tys0⟩ <;> rw [hpl] at h
      · simp at h
      · dsimp only at h
        simp only [Option.some.injEq, Prod.ext_iff] at h
        obtain ⟨hg2, _⟩ := h
        subst hg2
        obtain ⟨x, y, dd, _, _, _, _, _, _, hcp, hg1w⟩ :=
          placeOne_spec (hne (w, tgt) (by simp)) hN hpo
        rcases ih g1 s1 g2 s2 tys0 hpl hN (fun a ha => hne a (by simp [ha])) r hr c hc with
          ⟨r0, hr0, hc0⟩ | ⟨wt2, hwt2, ch, hch, he⟩
        · rw [hg1w] at hr0
          rcases writeWord_mem w g x y dd.dx dd.dy r0 hr0 c hc0 with h2 | ⟨ch, hch, he⟩
          · exact Or.inl h2
          · exact Or.inr ⟨(w, tgt), by simp, ch, hch, he⟩
        · exact Or.inr ⟨wt2, by simp [hwt2], ch, hch, he⟩

/-! ## Bridging helpers for the final grid -/

theorem targetsFor_ne {n : Nat} {t : Option Char} (h : t ∈ targetsFor n) :
    dirsFor t ≠ [] := by
  simp only [targetsFor, List.mem_append, List.mem_replicate] at h
  rcases h with h | h
  · simp only [List.mem_cons, List.mem_singleton, List.not_mem_nil, or_false] at h
    rcases h with h | h | h <;> subst h <;> decide
  · rw [h.2]
    decide

theorem cellsList_mem {N a b : Nat} (ha : a < N) (hb : b < N) : (a, b) ∈ cellsList N := by
  simp only [cellsList, List.mem_map, List.mem_range]
  refine ⟨a + b * N, ?_, ?_⟩
  · calc a + b * N < N + b * N := by omega
      _ = (b + 1) * N := by ring
      _ ≤ N * N := Nat.mul_le_mul_right N hb
  · rw [Nat.add_mul_mod_self_right, Nat.add_mul_div_right a b (by omega),
      Nat.mod_eq_of_lt ha, Nat.div_eq_of_lt ha, Nat.zero_add]

theorem spellsAtB_of_pointwise {rows : List (List Char)} {N : Nat} :
    ∀ (w : List Char) (x y dx dy : Int),
      (∀ i : Nat, ∀ hi : i < w.length, inB N (x + dx * i) (y + dy * i) = true ∧
        charAt rows (x + dx * i) (y + dy * i) = w.get ⟨i, hi⟩) →
      spellsAtB rows N w x y dx dy = true := by
  intro w
  induction w with
  | nil => intro x y dx dy _; rfl
  | cons c rest ih =>
    intro x y dx dy h
    simp only [spellsAtB, Bool.and_eq_true]
    have h0 := h 0 (by simp)
    simp only [Nat.cast_zero, mul_zero, add_zero] at h0
    refine ⟨⟨h0.1, beq_iff_eq.mpr h0.2⟩, ?_⟩
    apply ih
    intro i hi
    have hstep := h (i + 1) (by simpa using Nat.succ_lt_succ hi)
    rw [show x + dx * (((i : Nat) + 1 : Nat) : Int) = (x + dx) + dx * i by push_cast; ring,
        show y + dy * (((i : Nat) + 1 : Nat) : Int) = (y + dy) + dy * i by push_cast; ring]
        at hstep
    simpa using hstep

/-! ## The full attempt: `tryGenerate` -/

theorem tryGenerate_spec {d : List Char} {ws : List (List Char)} {salt : Nat} {p : Puzzle}
    (h : tryGenerate d ws salt = .ok (some p)) :
    p.size = 12 ∧ p.answers.length = 6 ∧ WFm 12 p.grid ∧
    (∀ r ∈ p.grid, ∀ c ∈ r, (∃ w ∈ p.answers, c ∈ w) ∨ isUpper c = true) ∧
    ∃ tys : List Char, runTypes d ws salt = some tys ∧ tys.length = 6 ∧
      ∃ pls : List Placement, pls.length = 6 ∧
        (∀ k : Nat, ∀ hk2 : k < pls.length, ∀ hk3 : k < tys.length,
          ∀ hk4 : k < p.answers.length,
          (⟨(pls[k]).dx, (pls[k]).dy, (pls[k]).ty⟩ : Dir) ∈ DIRS ∧
          (pls[k]).ty = tys[k] ∧
          spellsAtB p.grid 12 p.answers[k] (pls[k]).x (pls[k]).y
            (pls[k]).dx (pls[k]).dy = true) ∧
        List.Pairwise cellDisjoint (pls.zip p.answers) := by
  simp only [tryGenerate] at h
  set sh := seededShuffle ws (xmur3First (theSeedString d ws.length salt)) with hsh
  set pick := pickGo sh.1 [] with hpick
  split at h
  · simp at h
  case isFalse hlen =>
    have hlen6 : pick.length = 6 := by omega
    rcases hpl : placeList 12 (List.replicate 12 (List.replicate 12 none))
        sh.2 (pick.zip (targetsFor pick.length)) with _ | ⟨g2, s2, tys⟩ <;> rw [hpl] at h
    · simp at h
    · dsimp only at h
      simp only [Except.ok.injEq, Option.some.injEq] at h
      subst h
      have hwf0 : WFm 12 (List.replicate 12 (List.replicate 12 (none : Option Char))) := by
        refine ⟨by simp, ?_⟩
        intro r hm
        rw [List.eq_of_mem_replicate hm]
        simp
      have hne : ∀ wt ∈ pick.zip (targetsFor pick.length), dirsFor wt.2 ≠ [] :=
        fun wt hwt => targetsFor_ne (List.of_mem_zip hwt).2
      have hitems : (pick.zip (targetsFor pick.length)).length = 6 := by
        rw [List.length_zip, hlen6]
        simp [targetsFor, hlen6]
      obtain ⟨hwf2, hlenty, pls, hlenpls, hprop, hpair⟩ :=
        placeList_spec (pick.zip (targetsFor pick.length)) _ sh.2 g2 s2 tys hpl hwf0
          (by omega) hne
      have hfst : (pick.zip (targetsFor pick.length)).map Prod.fst = pick := by
        apply List.map_fst_zip
        simp [targetsFor, hlen6]
      refine ⟨rfl, hlen6, fillRows_WFm g2 s2 hwf2, ?_, tys, ?_, by omega, pls, by omega,
        ?_, ?_⟩
      · -- character provenance in the final grid
        intro r hr c hc
        rcases fillRows_mem g2 s2 r hr c hc with ⟨r0, hr0, hc0⟩ | h2
        · rcases placeList_mem _ _ sh.2 g2 s2 tys hpl (by omega) hne r0 hr0 (some c) hc0 with
            ⟨r1, hr1, hc1⟩ | ⟨wt, hwt, ch, hch, he⟩
          · rw [List.eq_of_mem_replicate hr1] at hc1
            exact Option.noConfusion (List.eq_of_mem_replicate hc1)
          · refine Or.inl ⟨wt.1, hfst ▸ List.mem_map_of_mem Prod.fst hwt, ?_⟩
            have hce : c = ch := Option.some.inj he
            exact hce ▸ hch
        · exact Or.inr h2
      · -- the recorded `usedTypes`
        simp only [runTypes, ← hsh, ← hpick]
        rw [if_neg (by omega), hpl]
      · -- per-word placements spell the answers in the final grid
        intro k hk2 hk3 hk4
        have hk : k < (pick.zip (targetsFor pick.length)).length := by omega
        obtain ⟨⟨hdm, hb, _, hlet⟩, hty⟩ := hprop k hk (by omega) (by omega)
        have hitem : ((pick.zip (targetsFor pick.length))[k]).1 = pick[k] := by
          rw [List.getElem_zip]
        rw [hitem] at hb hlet
        refine ⟨hdm, hty, ?_⟩
        apply spellsAtB_of_pointwise
        intro i hi
        refine ⟨hb i hi, ?_⟩
        exact fillRows_some (hlet i hi)
      · -- pairwise disjointness against the answers
        rw [hfst] at hpair
        exact hpair

/-! ## The attempt loop -/

theorem genGo_ok {d : List Char} {ws : List (List Char)} :
    ∀ (fuel att : Nat) (p : Puzzle), genGo d ws att fuel = .ok p →
      ∃ salt : Nat, tryGenerate d ws salt = .ok (some p) := by
  intro fuel
  induction fuel with
  | zero =>
    intro att p h
    simp [genGo] at h
  | succ fuel ih =>
    intro att p h
    simp only [genGo] at h
    rcases htg : tryGenerate d ws att with e | op <;> rw [htg] at h
    · simp at h
    · cases op with
      | none => exact ih (att + 1) p h
      | some p0 =>
        dsimp only at h
        split at h
        · simp only [Except.ok.injEq] at h
          subst h
          exact ⟨att, htg⟩
        · exact ih (att + 1) p h

theorem genGo_all_none {d : List Char} {ws : List (List Char)} :
    ∀ (fuel att : Nat),
      (∀ k : Nat, att ≤ k → k < att + fuel → tryGenerate d ws k = .ok none) →
      genGo d ws att fuel = .error exhaustMsg := by
  intro fuel
  induction fuel with
  | zero => intro att _; rfl
  | succ fuel ih =>
    intro att hall
    simp only [genGo]
    rw [hall att le_rfl (by omega)]
    exact ih (att + 1) (fun k hk1 hk2 => hall k (by omega) (by omega))

theorem genGo_first {d : List Char} {ws : List (List Char)} :
    ∀ (fuel att k0 : Nat) (p : Puzzle), att ≤ k0 → k0 < att + fuel →
      (∀ k : Nat, att ≤ k → k < k0 → tryGenerate d ws k = .ok none) →
      tryGenerate d ws k0 = .ok (some p) → p.answers.length = 6 →
      genGo d ws att fuel = .ok p := by
  intro fuel
  induction fuel with
  | zero => intro att k0 p h1 h2 _ _ _; omega
  | succ fuel ih =>
    intro att k0 p h1 h2 hprev htg hlen
    by_cases hk : att = k0
    · subst hk
      simp only [genGo]
      rw [htg]
      dsimp only
      rw [if_pos hlen]
    · simp only [genGo]
      rw [hprev att le_rfl (by omega)]
      exact ih (att + 1) k0 p (by omega) (by omega)
        (fun k hk1 hk2 => hprev k (by omega) hk2) htg hlen

/-! ## Oversized words never place -/

theorem canPlace_long {g : Grid} {w : List Char} (hw : 12 < w.length) {x y : Int}
    {d : Dir} (hd : d ∈ DIRS) : canPlace g 12 w x y d.dx d.dy = false := by
  rcases Bool.eq_false_or_eq_true (canPlace g 12 w x y d.dx d.dy) with ht | hf
  · exfalso
    have h0 := (canPlace_spec w x y d.dx d.dy ht 0 (by omega)).1
    have h12 := (canPlace_spec w x y d.dx d.dy ht 12 (by omega)).1
    rw [inB_iff] at h0 h12
    fin_cases hd <;> push_cast at h0 h12 <;> omega
  · exact hf

theorem placeWordGo_long : ∀ (fuel : Nat) (g : Grid) (s : Nat) (w : List Char)
    (directions : List Dir), 12 < w.length → (∀ d ∈ directions, d ∈ DIRS) →
    (placeWordGo 12 w directions g s fuel).1 = none := by
  intro fuel
  induction fuel with
  | zero => intro g s w directions _ _; rfl
  | succ fuel ih =>
    intro g s w directions hw hsub
    simp only [placeWordGo]
    have hdir : directions.getD (randIdx s directions.length).2 ⟨1, 0, 'H'⟩ ∈ DIRS := by
      rcases Nat.lt_or_ge (randIdx s directions.length).2 directions.length with hlt | hge
      · refine hsub _ ?_
        rw [List.getD_eq_getElem?_getD, List.getElem?_eq_getElem hlt]
        exact List.getElem_mem hlt
      · rw [List.getD_eq_getElem?_getD, List.getElem?_eq_none hge]
        decide
    rw [if_neg (by rw [canPlace_long hw hdir]; exact Bool.false_ne_true)]
    exact ih _ _ _ _ hw hsub

theorem placeWord_long {g : Grid} {w : List Char} {s : Nat} {desired : Option Char}
    {maxTries : Nat} (hw : 12 < w.length) :
    (placeWord g 12 w s desired maxTries).1 = none :=
  placeWordGo_long maxTries g s w (dirsFor desired) hw (fun _ hd => dirsFor_sub hd)

theorem placeOne_long {g : Grid} {w : List Char} {s : Nat} {tgt : Option Char}
    (hw : 12 < w.length) : placeOne g 12 w s tgt = none := by
  cases tgt with
  | none =>
    simp only [placeOne]
    rcases hpw : placeWord g 12 w s none 800 with ⟨oty, g1, s1⟩
    have : oty = none := by
      have h := @placeWord_long g w s none 800 hw
      rw [hpw] at h
      exact h
    rw [this]
  | some t =>
    simp only [placeOne]
    rcases hpw : placeWord g 12 w s (some t) 800 with ⟨oty, g1, s1⟩
    have h1 : oty = none := by
      have h := @placeWord_long g w s (some t) 800 hw
      rw [hpw] at h
      exact h
    rw [h1]
    dsimp only
    rcases hpw2 : placeWord g1 12 w s1 none 800 with ⟨oty2, g2, s2⟩
    have h2 : oty2 = none := by
      have h := @placeWord_long g1 w s1 none 800 hw
      rw [hpw2] at h
      exact h
    rw [h2]

theorem pickGo_all : ∀ (pool acc : List (List Char)), (acc ++ pool).Nodup →
    acc.length + pool.length ≤ 6 → pickGo pool acc = acc ++ pool := by
  intro pool
  induction pool with
  | nil => intro acc _ _; simp [pickGo]
  | cons w rest ih =>
    intro acc hnd hlen
    simp only [pickGo]
    rw [if_neg (by simp at hlen ⊢; omega)]
    rw [if_neg ?_]
    · rw [ih (acc ++ [w]) (by simpa using hnd) (by simp at hlen ⊢; omega)]
      simp
    · intro hmem
      have hdisj := (List.nodup_append.mp hnd).2.2
      exact hdisj hmem (by simp)

theorem pickGo_sub : ∀ (pool acc : List (List Char)) (x : List Char),
    x ∈ pickGo pool acc → x ∈ pool ∨ x ∈ acc := by
  intro pool
  induction pool with
  | nil => intro acc x h; exact Or.inr h
  | cons w rest ih =>
    intro acc x h
    simp only [pickGo] at h
    split at h
    · exact Or.inr h
    · split at h
      · rcases ih acc x h with h2 | h2
        · exact Or.inl (by simp [h2])
        · exact Or.inr h2
      · rcases ih (acc ++ [w]) x h with h2 | h2
        · exact Or.inl (by simp [h2])
        · rcases List.mem_append.mp h2 with h3 | h3
          · exact Or.inr h3
          · exact Or.inl (by simp at h3; simp [h3])

theorem tryGenerate_answers_sub {d : List Char} {ws : List (List Char)} {salt : Nat}
    {p : Puzzle} (h : tryGenerate d ws salt = .ok (some p)) :
    ∀ w ∈ p.answers, w ∈ ws := by
  simp only [tryGenerate] at h
  split at h
  · simp at h
  · rcases hpl : placeList 12 (List.replicate 12 (List.replicate 12 none))
        (seededShuffle ws (xmur3First (theSeedString d ws.length salt))).2
        ((pickGo (seededShuffle ws (xmur3First (theSeedString d ws.length salt))).1 []).zip
          (targetsFor (pickGo (seededShuffle ws
            (xmur3First (theSeedString d ws.length salt))).1 []).length))
        with _ | ⟨g2, s2, tys⟩ <;> rw [hpl] at h
    · simp at h
    · dsimp only at h
      simp only [Except.ok.injEq, Option.some.injEq] at h
      subst h
      intro w hw
      rcases pickGo_sub _ [] w hw with h2 | h2
      · exact (seededShuffle_perm ws _).mem_iff.mp h2
      · simp at h2

theorem tryGenerate_long_ok {d : List Char} {ws : List (List Char)} (salt : Nat)
    (hlong : ∀ w ∈ ws, 12 < w.length) (hnd : ws.Nodup) (hlen : ws.length = 6) :
    tryGenerate d ws salt = .ok none := by
  simp only [tryGenerate]
  set sh := seededShuffle ws (xmur3First (theSeedString d ws.length salt)) with hsh
  have hperm : List.Perm sh.1 ws := seededShuffle_perm ws _
  have hpool_nd : sh.1.Nodup := (hperm.nodup_iff).mpr hnd
  have hpool_len : sh.1.length = 6 := hperm.length_eq.trans hlen
  have hpick : pickGo sh.1 [] = sh.1 := by
    have := pickGo_all sh.1 [] (by simpa using hpool_nd) (by simp [hpool_len])
    simpa using this
  rw [hpick, if_neg (by omega)]
  rcases hcons : sh.1 with _ | ⟨w1, rest⟩
  · rw [hcons] at hpool_len
    simp at hpool_len
  · have hw1 : 12 < w1.length :=
      hlong w1 (hperm.mem_iff.mp (by rw [hcons]; simp))
    have hlen5 : rest.length = 5 := by
      rw [hcons] at hpool_len
      simpa using hpool_len
    have htar : targetsFor (w1 :: rest).length =
        [some 'H', some 'V', some 'D', none, none, none] := by
      rw [List.length_cons, hlen5]
      decide
    rw [htar, List.zip_cons_cons]
    simp only [placeList]
    rw [placeOne_long hw1]

/-! ## `fillDots` (batch builder) -/

theorem upper_ne_dot {c : Char} (h : isUpper c = true) : c ≠ '.' := by
  intro he
  rw [he] at h
  exact absurd h (by decide)

theorem fillDotsRow_no_dot : ∀ (row : List Char) (s : Nat), ∀ c ∈ (fillDotsRow row s).1,
    c ≠ '.' := by
  intro row
  induction row with
  | nil => intro s c hc; simp [fillDotsRow] at hc
  | cons a rest ih =>
    intro s c hc
    by_cases ha : (a == '.') = true
    · simp only [fillDotsRow, ha, if_true, List.mem_cons] at hc
      rcases hc with hc | hc
      · exact hc ▸ upper_ne_dot (randLetter_upper s)
      · exact ih _ c hc
    · simp only [fillDotsRow, ha, if_false, Bool.false_eq_true, List.mem_cons] at hc
      rcases hc with hc | hc
      · subst hc
        exact fun he => ha (by rw [he]; rfl)
      · exact ih _ c hc

theorem fillDotsRow_length : ∀ (row : List Char) (s : Nat),
    (fillDotsRow row s).1.length = row.length := by
  intro row
  induction row with
  | nil => intro s; rfl
  | cons a rest ih =>
    intro s
    by_cases ha : (a == '.') = true <;>
      simp [fillDotsRow, ha, ih]

theorem fillDots_shape : ∀ (g : GridS) (s : Nat),
    (fillDots g s).1.length = g.length ∧
    (∀ r ∈ (fillDots g s).1, ∃ r0 ∈ g, r.length = r0.length) ∧
    (∀ r ∈ (fillDots g s).1, ∀ c ∈ r, c ≠ '.') := by
  intro g
  induction g with
  | nil =>
    intro s
    refine ⟨rfl, ?_, ?_⟩ <;> intro r hr <;> simp [fillDots] at hr
  | cons row rest ih =>
    intro s
    obtain ⟨ihl, ihr, ihd⟩ := ih (fillDotsRow row s).2
    refine ⟨by simp [fillDots, ihl], ?_, ?_⟩
    · intro r hr
      simp only [fillDots, List.mem_cons] at hr
      rcases hr with hr | hr
      · exact ⟨row, by simp, hr ▸ fillDotsRow_length row s⟩
      · obtain ⟨r0, hr0, he⟩ := ihr r hr
        exact ⟨r0, by simp [hr0], he⟩
    · intro r hr c hc
      simp only [fillDots, List.mem_cons] at hr
      rcases hr with hr | hr
      · exact fillDotsRow_no_dot row s c (hr ▸ hc)
      · exact ihd r hr c hc

/-! ## Claim theorems -/

/-- C10: placement atomicity in the serverless generator.  For every grid
state, word, PRNG state, desired direction class and try budget, a failed
`placeWord` returns the grid exactly as it was, and a successful one
commits letters only after a full `canPlace` check succeeded, as a single
straight-line write. -/
theorem placeWord_atomic (g : Grid) (N : Nat) (w : List Char) (s : Nat)
    (desired : Option Char) (maxTries : Nat) :
    ((placeWord g N w s desired maxTries).1 = none →
      (placeWord g N w s desired maxTries).2.1 = g) ∧
    (0 < N → ∀ ty : Char, (placeWord g N w s desired maxTries).1 = some ty →
      dirsFor desired ≠ [] →
      ∃ (x y : Int) (dd : Dir), dd ∈ dirsFor desired ∧
        canPlace g N w x y dd.dx dd.dy = true ∧
        (placeWord g N w s desired maxTries).2.1 = writeWord g w x y dd.dx dd.dy) := by
  rcases hpw : placeWord g N w s desired maxTries with ⟨oty, g1, s1⟩
  constructor
  · intro h1
    simp only at h1
    subst h1
    exact placeWord_none hpw
  · intro hN ty h1 hne
    simp only at h1
    subst h1
    obtain ⟨x, y, dd, hd, _, _, _, _, _, hcp, hg⟩ := placeWord_some_spec hne hN hpw
    exact ⟨x, y, dd, hd, hcp, hg⟩

/-- Witness for C10 at a concrete failing call: a 13-letter word in the
12 × 12 grid cannot be placed, and the grid comes back unchanged. -/
theorem placeWord_atomic_witness :
    (placeWord emptyGrid12 12 "ABCDEFGHIJKLM".toList 0 none 800).1 = none ∧
    (placeWord emptyGrid12 12 "ABCDEFGHIJKLM".toList 0 none 800).2.1 = emptyGrid12 :=
  ⟨placeWord_long (by decide),
   (placeWord_atomic emptyGrid12 12 "ABCDEFGHIJKLM".toList 0 none 800).1
     (placeWord_long (by decide))⟩

/-- C1: determinism of the build.  `generatePuzzleForDate` is a pure
function of the date string and word list (all randomness comes from the
xmur3/mulberry32 state seeded by those inputs and the attempt salt), so
two calls with the same arguments agree, in particular on theme, size,
grid rows and answers. -/
theorem generatePuzzleForDate_deterministic (d : List Char) (ws : List (List Char)) :
    generatePuzzleForDate d ws = generatePuzzleForDate d ws ∧
    ∀ p q : Puzzle, generatePuzzleForDate d ws = .ok p →
      generatePuzzleForDate d ws = .ok q →
      p.theme = q.theme ∧ p.size = q.size ∧ p.grid = q.grid ∧ p.answers = q.answers := by
  refine ⟨rfl, ?_⟩
  intro p q hp hq
  rw [hp] at hq
  obtain rfl := Except.ok.inj hq
  exact ⟨rfl, rfl, rfl, rfl⟩

/-- Witness for C1 at the concrete date `dEx` and word list `wsEx`. -/
theorem generatePuzzleForDate_deterministic_witness :
    generatePuzzleForDate dEx wsEx = .ok pEx ∧
    pEx.theme = pEx.theme ∧ pEx.size = pEx.size ∧ pEx.grid = pEx.grid ∧
      pEx.answers = pEx.answers := by
  have h : generatePuzzleForDate dEx wsEx = .ok pEx := by decide!
  exact ⟨h, (generatePuzzleForDate_deterministic dEx wsEx).2 pEx pEx h h⟩

/-- C6: corpus insufficiency is surfaced.  Whenever the raw corpus text
yields fewer than six unique normalized words of length 4–12, the loader
returns the descriptive insufficiency error reporting the count found;
and whenever it succeeds, the returned list has at least six words (so a
puzzle with fewer answers can never come from a thin corpus). -/
theorem loadWords_insufficient (raw : List Char) :
    ((uniqWords raw).length < 6 →
      loadWords raw = .error (insuffMsg (uniqWords raw).length)) ∧
    (∀ l : List (List Char), loadWords raw = .ok l →
      l = uniqWords raw ∧ 6 ≤ l.length) := by
  constructor
  · intro h
    simp only [loadWords]
    rw [if_pos h]
  · intro l h
    simp only [loadWords] at h
    by_cases hc : (uniqWords raw).length < 6
    · rw [if_pos hc] at h
      simp at h
    · rw [if_neg hc] at h
      simp only [Except.ok.injEq] at h
      subst h
      exact ⟨rfl, by omega⟩

/-- Witness for C6: a corpus with five eligible words is rejected with
the message reporting the count 5. -/
theorem loadWords_insufficient_witness :
    (uniqWords rawEx5).length < 6 ∧
    loadWords rawEx5 = .error (insuffMsg (uniqWords rawEx5).length) :=
  ⟨by decide, (loadWords_insufficient rawEx5).1 (by decide)⟩

/-- C4 counterexample: the claim that exhaustion of all 50 attempts
raises an error identifying the failing word and the grid size is false.
For the concrete date `dC4` and the six 13-letter words `ws13`, every
attempt fails, and the thrown message mentions neither any of the words
nor the grid size 12. -/
theorem exhaustion_message_cx :
    ¬ (∀ (d : List Char) (ws : List (List Char)),
        (∀ k : Nat, k < 50 → tryGenerate d ws k = .ok none) →
        ∃ e : List Char, generatePuzzleForDate d ws = .error e ∧
          (∃ w ∈ ws, containsSub e w = true) ∧
          containsSub e (Nat.toDigits 10 12) = true) := by
  intro hclaim
  have hall : ∀ k : Nat, k < 50 → tryGenerate dC4 ws13 k = .ok none :=
    fun k _ => tryGenerate_long_ok k (by decide) (by decide) (by decide)
  obtain ⟨e, he, _, hsz⟩ := hclaim dC4 ws13 hall
  have hgen : generatePuzzleForDate dC4 ws13 = .error exhaustMsg :=
    genGo_all_none 50 0 (fun k _ hk2 => hall k (by omega))
  rw [hgen] at he
  obtain rfl := (Except.error.inj he).symm
  exact absurd hsz (by decide)

/-- C4 (amended): retry orchestration.  The orchestrator makes at most 50
attempts with salts 0..49 mixed into the seed, returns the first attempt
that places all six words, and when every attempt fails it throws the
fixed generic message (which names neither the offending word nor the
grid size). -/
theorem retry_orchestration (d : List Char) (ws : List (List Char)) :
    ((∀ k : Nat, k < 50 → tryGenerate d ws k = .ok none) →
      generatePuzzleForDate d ws = .error exhaustMsg) ∧
    (∀ (k0 : Nat) (p : Puzzle), k0 < 50 →
      (∀ k : Nat, k < k0 → tryGenerate d ws k = .ok none) →
      tryGenerate d ws k0 = .ok (some p) → p.answers.length = 6 →
      generatePuzzleForDate d ws = .ok p) := by
  constructor
  · intro hall
    exact genGo_all_none 50 0 (fun k _ hk2 => hall k (by omega))
  · intro k0 p hk0 hprev htg hlen
    exact genGo_first 50 0 k0 p (by omega) (by omega) (fun k _ hk2 => hprev k hk2) htg hlen

/-- Witness for C4 (amended): attempt 0 for `dEx` / `wsEx` succeeds and
the orchestrator returns exactly that puzzle. -/
theorem retry_orchestration_witness : generatePuzzleForDate dEx wsEx = .ok pEx := by
  have htg : tryGenerate dEx wsEx 0 = .ok (some pEx) := by decide!
  exact (retry_orchestration dEx wsEx).2 0 pEx (by omega) (fun k hk => absurd hk (by omega))
    htg (by decide!)

/-- C2 counterexample: the batch script's straight engine does not
require every cell along the line to be empty — a cell already holding
the matching letter is accepted.  On the concrete grid `g2` the word
`"AB"` is committed across the occupied `'B'`, so only one new cell is
written instead of two. -/
theorem tryPlaceStraight_overlap_cx :
    ¬ (∀ (g : GridS) (w : List Char) (s : Nat),
        (tryPlaceStraight g w s).1 = true →
        nonDotCount (tryPlaceStraight g w s).2.1 = nonDotCount g + w.length) := by
  intro hclaim
  have h := hclaim g2 "AB".toList 0 (by decide)
  revert h
  decide

/-- C2 (amended): non-overlap in the serverless generator's straight-line
engine.  Every puzzle returned by `generatePuzzleForDate` admits one
straight placement per answer, each a `DIRS` line spelling its answer
inside the board, with pairwise disjoint cell sets — because `canPlace`
accepts a placement only when every cell along the line is still empty.
(The batch script's `tryPlaceStraight` is the exception recorded by the
counterexample: it also accepts same-letter cells.) -/
theorem answers_paths_disjoint (d : List Char) (ws : List (List Char)) (p : Puzzle)
    (h : generatePuzzleForDate d ws = .ok p) :
    ∃ pls : List Placement, pls.length = 6 ∧ p.answers.length = 6 ∧
      (∀ k : Nat, ∀ hk2 : k < pls.length, ∀ hk4 : k < p.answers.length,
        (⟨(pls[k]).dx, (pls[k]).dy, (pls[k]).ty⟩ : Dir) ∈ DIRS ∧
        spellsAtB p.grid 12 p.answers[k] (pls[k]).x (pls[k]).y
          (pls[k]).dx (pls[k]).dy = true) ∧
      List.Pairwise cellDisjoint (pls.zip p.answers) := by
  obtain ⟨salt, htg⟩ := genGo_ok 50 0 p h
  obtain ⟨_, hlen, _, _, tys, _, hty6, pls, hpls6, hprop, hpair⟩ := tryGenerate_spec htg
  refine ⟨pls, hpls6, hlen, ?_, hpair⟩
  intro k hk2 hk4
  obtain ⟨h1, _, h3⟩ := hprop k hk2 (by omega) hk4
  exact ⟨h1, h3⟩

/-- Witness for C2 at the concrete successful build for `dEx` / `wsEx`. -/
theorem answers_paths_disjoint_witness :
    ∃ pls : List Placement, pls.length = 6 ∧ pEx.answers.length = 6 ∧
      (∀ k : Nat, ∀ hk2 : k < pls.length, ∀ hk4 : k < pEx.answers.length,
        (⟨(pls[k]).dx, (pls[k]).dy, (pls[k]).ty⟩ : Dir) ∈ DIRS ∧
        spellsAtB pEx.grid 12 pEx.answers[k] (pls[k]).x (pls[k]).y
          (pls[k]).dx (pls[k]).dy = true) ∧
      List.Pairwise cellDisjoint (pls.zip pEx.answers) :=
  answers_paths_disjoint dEx wsEx pEx (by decide!)

/-- C3 counterexample: a successful build need not exhibit all three
orientation classes.  With six twelve-letter words every vertical or
diagonal placement is blocked after the first horizontal word, the
required-class attempts for words two and three fall back to unrestricted
placements, and the resulting puzzle has no vertical spelling of any
answer. -/
theorem variety_missing_cx :
    ¬ (∀ (d : List Char) (ws : List (List Char)) (p : Puzzle),
        generatePuzzleForDate d ws = .ok p →
        exhibitsClass p 'H' = true ∧ exhibitsClass p 'V' = true ∧
          exhibitsClass p 'D' = true) := by
  intro hclaim
  have h := (hclaim dC4 ws12 pC3 (by decide!)).2.1
  revert h
  decide!

theorem exhibits_of_spells {p : Puzzle} (hsz : p.size = 12) {a : List Char}
    (ha : a ∈ p.answers) {x y ddx ddy : Int} {ty : Char}
    (hd : (⟨ddx, ddy, ty⟩ : Dir) ∈ DIRS)
    (hsp : spellsAtB p.grid 12 a x y ddx ddy = true) :
    exhibitsClass p ty = true := by
  simp only [exhibitsClass, List.any_eq_true]
  refine ⟨a, ha, ?_⟩
  cases a with
  | nil =>
    refine ⟨(0, 0), by rw [hsz]; exact cellsList_mem (by omega) (by omega),
      ⟨ddx, ddy, ty⟩, hd, ?_⟩
    rw [hsz]
    simp [spellsAtB]
  | cons c rest =>
    have hin : inB 12 x y = true := by
      simp only [spellsAtB, Bool.and_eq_true] at hsp
      exact hsp.1.1
    rw [inB_iff] at hin
    refine ⟨(x.toNat, y.toNat), by rw [hsz]; exact cellsList_mem (by omega) (by omega),
      ⟨ddx, ddy, ty⟩, hd, ?_⟩
    rw [hsz]
    have hx : ((x.toNat : Nat) : Int) = x := Int.toNat_of_nonneg (by omega)
    have hy : ((y.toNat : Nat) : Int) = y := Int.toNat_of_nonneg (by omega)
    simp only [hx, hy]
    simp [hsp]

/-- C3 (amended): directional-variety policy.  For every build attempt
the first three selected words carry the required classes "H", "V", "D"
in that order; a word whose class-restricted placement succeeds is
recorded with exactly that class, a word whose class-restricted placement
fails is retried without restriction on the unchanged grid before the
attempt is declared failed; every class recorded in `usedTypes` is
exhibited by the final puzzle, so the puzzle exhibits all three classes
whenever the first three recorded types are "H", "V", "D" — but a
fallback placement may record (and exhibit) a different class, so the
three-class guarantee holds only in that case. -/
theorem first_three_direction_policy :
    targetsFor 6 = [some 'H', some 'V', some 'D', none, none, none] ∧
    (∀ (g : Grid) (w : List Char) (s : Nat) (t ty0 : Char),
      t = 'H' ∨ t = 'V' ∨ t = 'D' →
      (placeWord g 12 w s (some t) 800).1 = some ty0 →
      ty0 = t ∧
      placeOne g 12 w s (some t) =
        some (ty0, (placeWord g 12 w s (some t) 800).2.1,
          (placeWord g 12 w s (some t) 800).2.2)) ∧
    (∀ (g : Grid) (w : List Char) (s : Nat) (t : Char),
      (placeWord g 12 w s (some t) 800).1 = none →
      placeOne g 12 w s (some t) =
        (match placeWord g 12 w (placeWord g 12 w s (some t) 800).2.2 none 800 with
         | (some ty, g', s') => some (ty, g', s')
         | (none, _, _) => none)) ∧
    (∀ (d : List Char) (ws : List (List Char)) (salt : Nat) (p : Puzzle) (tys : List Char),
      tryGenerate d ws salt = .ok (some p) → runTypes d ws salt = some tys →
      (∀ k : Nat, ∀ hk : k < tys.length, exhibitsClass p tys[k] = true) ∧
      (tys.take 3 = ['H', 'V', 'D'] →
        exhibitsClass p 'H' = true ∧ exhibitsClass p 'V' = true ∧
          exhibitsClass p 'D' = true)) := by
  refine ⟨by decide, ?_, ?_, ?_⟩
  · intro g w s t ty0 ht h
    rcases hpw : placeWord g 12 w s (some t) 800 with ⟨oty, g1, s1⟩
    rw [hpw] at h
    simp only at h
    subst h
    have hne : dirsFor (some t) ≠ [] := by
      rcases ht with ht | ht | ht <;> subst ht <;> decide
    obtain ⟨_, _, dd, hd, hdty, _⟩ := placeWord_some_spec hne (by omega) hpw
    constructor
    · rw [← hdty]
      exact dirsFor_ty hd
    · simp only [placeOne, hpw]
  · intro g w s t h
    rcases hpw : placeWord g 12 w s (some t) 800 with ⟨oty, g1, s1⟩
    rw [hpw] at h
    simp only at h
    subst h
    have hg1 : g1 = g := placeWord_none hpw
    simp only [placeOne, hpw, hg1]
  · intro d ws salt p tys htg hrt
    obtain ⟨hsz, hlen, _, _, tys', hrt', hty6, pls, hpls6, hprop, _⟩ := tryGenerate_spec htg
    rw [hrt] at hrt'
    obtain rfl := Option.some.inj hrt'
    have hmain : ∀ k : Nat, ∀ hk : k < tys.length, exhibitsClass p tys[k] = true := by
      intro k hk
      obtain ⟨hd, hty, hsp⟩ := hprop k (by omega) hk (by omega)
      rw [hty] at hd
      exact exhibits_of_spells hsz (List.getElem_mem (by omega)) hd hsp
    refine ⟨hmain, ?_⟩
    intro htake
    have hget : ∀ i : Nat, i < 3 → tys[i]? = ['H', 'V', 'D'][i]? := by
      intro i hi
      have he : (tys.take 3)[i]? = tys[i]? := by
        rw [List.getElem?_take, if_pos hi]
      rw [← he, htake]
    have h0 : tys[0]? = some 'H' := hget 0 (by omega)
    have h1 : tys[1]? = some 'V' := hget 1 (by omega)
    have h2 : tys[2]? = some 'D' := hget 2 (by omega)
    have hl0 : (0 : Nat) < tys.length := by omega
    have hl1 : (1 : Nat) < tys.length := by omega
    have hl2 : (2 : Nat) < tys.length := by omega
    rw [List.getElem?_eq_getElem hl0] at h0
    rw [List.getElem?_eq_getElem hl1] at h1
    rw [List.getElem?_eq_getElem hl2] at h2
    refine ⟨?_, ?_, ?_⟩
    · rw [← Option.some.inj h0]
      exact hmain 0 hl0
    · rw [← Option.some.inj h1]
      exact hmain 1 hl1
    · rw [← Option.some.inj h2]
      exact hmain 2 hl2

/-- Witness for C3: for `dEx` / `wsEx` attempt 0 records exactly
["H", "V", "D"] for the first three words and the puzzle exhibits all
three classes. -/
theorem first_three_direction_policy_witness :
    tysEx.take 3 = ['H', 'V', 'D'] ∧
    exhibitsClass pEx 'H' = true ∧ exhibitsClass pEx 'V' = true ∧
      exhibitsClass pEx 'D' = true := by
  have htg : tryGenerate dEx wsEx 0 = .ok (some pEx) := by decide!
  have hrt : runTypes dEx wsEx 0 = some tysEx := by decide!
  have htake : tysEx.take 3 = ['H', 'V', 'D'] := by decide!
  exact ⟨htake,
    (first_three_direction_policy.2.2.2 dEx wsEx 0 pEx tysEx htg hrt).2 htake⟩

/-- C7: grid shape invariant of a successful build attempt.  (i) When the
word list is normalized (`[A-Z]` only, as `loadWordList` guarantees),
every puzzle a successful `tryGenerate` attempt returns has `size = 12`,
exactly 12 grid rows of exactly 12 characters, all uppercase `A`–`Z` —
in particular no empty cell survives the fill step.  (ii) The batch
builder's `fillDots` likewise leaves no `'.'` cell and preserves the
grid's shape. -/
theorem grid_shape_invariant :
    (∀ (d : List Char) (ws : List (List Char)) (salt : Nat) (p : Puzzle),
      (∀ w ∈ ws, ∀ c ∈ w, isUpper c = true) →
      tryGenerate d ws salt = .ok (some p) →
      p.size = 12 ∧ p.grid.length = 12 ∧
      (∀ r ∈ p.grid, r.length = 12 ∧ ∀ c ∈ r, isUpper c = true)) ∧
    (∀ (g : GridS) (s : Nat),
      (fillDots g s).1.length = g.length ∧
      (∀ r ∈ (fillDots g s).1, ∃ r0 ∈ g, r.length = r0.length) ∧
      (∀ r ∈ (fillDots g s).1, ∀ c ∈ r, c ≠ '.')) := by
  constructor
  · intro d ws salt p hnorm htg
    obtain ⟨hsz, _, ⟨hgl, hgr⟩, hchars, _⟩ := tryGenerate_spec htg
    refine ⟨hsz, hgl, ?_⟩
    intro r hr
    refine ⟨hgr r hr, ?_⟩
    intro c hc
    rcases hchars r hr c hc with ⟨w, hw, hcw⟩ | h2
    · exact hnorm w (tryGenerate_answers_sub htg w hw) c hcw
    · exact h2
  · intro g s
    exact fillDots_shape g s

/-- Witness for C7 at the concrete successful attempt for `dEx` / `wsEx`. -/
theorem grid_shape_invariant_witness :
    pEx.size = 12 ∧ pEx.grid.length = 12 ∧
    (∀ r ∈ pEx.grid, r.length = 12 ∧ ∀ c ∈ r, isUpper c = true) :=
  grid_shape_invariant.1 dEx wsEx 0 pEx (by decide) (by decide!)

/-! ## Validator lemmas -/

theorem ofNat_letter_upper {k : Nat} (hk : k < 26) : isUpper (Char.ofNat (65 + k)) = true := by
  have : ∀ m : Nat, m < 26 → isUpper (Char.ofNat (65 + m)) = true := by decide
  exact this k hk

theorem letterOf_upper (f : Nat → Nat) (i : Nat) : isUpper (letterOf f i) = true :=
  ofNat_letter_upper (Nat.mod_lt _ (by omega))

theorem upChar_fix {c : Char} (h : isUpper c = true) : upChar c = c := by
  simp only [isUpper, Bool.and_eq_true, decide_eq_true_iff] at h
  have hlt : c < 'a' := lt_of_le_of_lt h.2 (by decide)
  simp only [upChar]
  rw [if_neg ?_]
  simp only [Bool.and_eq_true, decide_eq_true_iff]
  intro hc
  exact absurd hc.1 (not_le.mpr hlt)

theorem normChars_upper {w : List Char} : ∀ c ∈ normChars w, isUpper c = true :=
  fun _ hc => (List.mem_filter.mp hc).2

theorem map_fix {α : Type} {l : List α} {f : α → α} (h : ∀ a ∈ l, f a = a) :
    l.map f = l := by
  induction l with
  | nil => rfl
  | cons a t ih =>
    simp only [List.map_cons, h a (by simp)]
    rw [ih (fun b hb => h b (by simp [hb]))]

theorem normChars_fix {w : List Char} (h : ∀ c ∈ w, isUpper c = true) :
    normChars w = w := by
  simp only [normChars]
  rw [map_fix (fun c hc => upChar_fix (h c hc))]
  exact List.filter_eq_self.mpr h

theorem normChars_idem (w : List Char) : normChars (normChars w) = normChars w :=
  normChars_fix normChars_upper

/-! ### trim is idempotent -/

theorem dropWhile_invariant {α : Type} (p : α → Bool) :
    ∀ l : List α, List.dropWhile p (List.dropWhile p l) = List.dropWhile p l := by
  intro l
  induction l with
  | nil => rfl
  | cons a t ih =>
    by_cases h : p a = true
    · simp [List.dropWhile_cons, h, ih]
    · simp [List.dropWhile_cons, h]

theorem dropWhile_head_false {α : Type} {p : α → Bool} :
    ∀ {l : List α} {c : α} {cs : List α}, List.dropWhile p l = c :: cs → p c = false := by
  intro l
  induction l with
  | nil => intro c cs h; simp at h
  | cons a t ih =>
    intro c cs h
    by_cases hp : p a = true
    · rw [List.dropWhile_cons, if_pos hp] at h
      exact ih h
    · rw [List.dropWhile_cons, if_neg hp] at h
      obtain ⟨h1, _⟩ := List.cons.inj h
      rw [← h1]
      exact Bool.eq_false_iff.mpr hp

theorem dropWhile_is_suffix {α : Type} (p : α → Bool) :
    ∀ l : List α, ∃ t : List α, l = t ++ List.dropWhile p l := by
  intro l
  induction l with
  | nil => exact ⟨[], rfl⟩
  | cons a tl ih =>
    by_cases hp : p a = true
    · obtain ⟨t, ht⟩ := ih
      refine ⟨a :: t, ?_⟩
      rw [List.dropWhile_cons, if_pos hp]
      simpa using ht
    · refine ⟨[], ?_⟩
      rw [List.dropWhile_cons, if_neg hp]
      rfl

theorem trim_front_fixed (l : List Char) :
    List.dropWhile wsChar (trimChars l) = trimChars l := by
  simp only [trimChars]
  set A := l.dropWhile wsChar with hA
  set B := A.reverse.dropWhile wsChar with hB
  obtain ⟨t, ht⟩ := dropWhile_is_suffix wsChar A.reverse
  rw [← hB] at ht
  have hpre : A = B.reverse ++ t.reverse := by
    have := congrArg List.reverse ht
    simpa using this
  rcases hBr : B.reverse with _ | ⟨b, bt⟩
  · rfl
  · have hhead : wsChar b = false := by
      have hAc : A = b :: (bt ++ t.reverse) := by
        rw [hpre, hBr]
        simp
      have hfix : List.dropWhile wsChar A = A := dropWhile_invariant wsChar l
      rw [hAc] at hfix
      have hnot := List.dropWhile_eq_self_iff.mp hfix (by simp)
      have h2 : ¬ (wsChar b = true) := by simpa using hnot
      exact Bool.eq_false_iff.mpr h2
    rw [List.dropWhile_cons, if_neg (by rw [hhead]; exact Bool.false_ne_true)]

theorem trim_back_fixed (l : List Char) :
    List.dropWhile wsChar (trimChars l).reverse = (trimChars l).reverse := by
  simp only [trimChars]
  rw [List.reverse_reverse]
  exact dropWhile_invariant wsChar _

theorem trim_idem (l : List Char) : trimChars (trimChars l) = trimChars l := by
  conv_lhs => rw [trimChars]
  rw [trim_front_fixed, trim_back_fixed, List.reverse_reverse]

/-! ### Row padding -/

theorem padLoop_pad {f : Nat → Nat} {N : Nat} :
    ∀ (m : Nat) (r : List Char) (k : Nat), r.length + m ≤ N →
      padLoop f N m r k =
        (r ++ (List.range m).map (fun i => letterOf f (k + i)), k + m) := by
  intro m
  induction m with
  | zero => intro r k _; simp [padLoop]
  | succ m ih =>
    intro r k hle
    simp only [padLoop]
    rw [if_pos (by omega)]
    rw [ih (r ++ [letterOf f k]) (k + 1) (by simp; omega)]
    simp only [Prod.mk.injEq]
    constructor
    · have hfun : ((fun i => letterOf f (k + i)) ∘ Nat.succ) =
          (fun i => letterOf f (k + 1 + i)) := by
        funext i
        simp only [Function.comp_apply]
        congr 1
        omega
      rw [List.range_succ_eq_map, List.map_cons, List.map_map, hfun,
        List.append_assoc, List.singleton_append]
      simp
    · omega

theorem padRow_short {f : Nat → Nat} {N : Nat} {r : List Char} (h : r.length ≤ N)
    (k : Nat) :
    padRow f N r k =
      (r ++ (List.range (N - r.length)).map (fun i => letterOf f (k + i)),
        k + (N - r.length)) := by
  simp only [padRow]
  rw [padLoop_pad (N - r.length) r k (by omega)]
  simp only [Prod.mk.injEq]
  constructor
  · have hlen : (r ++ (List.range (N - r.length)).map
        (fun i => letterOf f (k + i))).length ≤ N := by
      simp
      omega
    exact List.take_of_length_le hlen
  · trivial

theorem padRow_counter (f : Nat → Nat) (N : Nat) (r : List Char) (k : Nat) :
    (padRow f N r k).2 = k + (N - r.length) := by
  rcases Nat.le_total r.length N with h | h
  · rw [padRow_short h]
  · have h0 : N - r.length = 0 := by omega
    simp only [padRow, h0, padLoop]
    omega

theorem padRow_len (f : Nat → Nat) {N : Nat} (hN : 0 < N) (r : List Char) (k : Nat) :
    (padRow f N r k).1.length = N := by
  rcases Nat.le_total r.length N with h | h
  · rw [padRow_short h]
    simp
    omega
  · have h0 : N - r.length = 0 := by omega
    simp only [padRow, h0, padLoop]
    simp
    omega

theorem padRow_fix {f : Nat → Nat} {N : Nat} {r : List Char} (h : r.length = N)
    (k : Nat) : padRow f N r k = (r, k) := by
  have h0 : N - r.length = 0 := by omega
  simp only [padRow, h0, padLoop]
  rw [← h, List.take_length]

theorem padRows_append (f : Nat → Nat) (N : Nat) :
    ∀ (l1 l2 : List (List Char)) (k : Nat),
      padRows f N (l1 ++ l2) k =
        ((padRows f N l1 k).1 ++ (padRows f N l2 (padRows f N l1 k).2).1,
          (padRows f N l2 (padRows f N l1 k).2).2) := by
  intro l1
  induction l1 with
  | nil => intro l2 k; simp [padRows]
  | cons r rest ih =>
    intro l2 k
    have hc : (r :: rest) ++ l2 = r :: (rest ++ l2) := rfl
    rw [hc]
    simp only [padRows]
    rw [ih l2 (padRow f N r k).2]
    simp

theorem padRows_len (f : Nat → Nat) (N : Nat) :
    ∀ (rows : List (List Char)) (k : Nat), (padRows f N rows k).1.length = rows.length := by
  intro rows
  induction rows with
  | nil => intro k; rfl
  | cons r rest ih => intro k; simp [padRows, ih]

theorem padRows_rowlen (f : Nat → Nat) {N : Nat} (hN : 0 < N) :
    ∀ (rows : List (List Char)) (k : Nat), ∀ r ∈ (padRows f N rows k).1, r.length = N := by
  intro rows
  induction rows with
  | nil => intro k r hr; simp [padRows] at hr
  | cons r0 rest ih =>
    intro k r hr
    simp only [padRows, List.mem_cons] at hr
    rcases hr with hr | hr
    · rw [hr]
      exact padRow_len f hN r0 k
    · exact ih _ r hr

theorem padRows_counter (f : Nat → Nat) (N : Nat) :
    ∀ (rows : List (List Char)) (k : Nat),
      (padRows f N rows k).2 = k + padCount N rows := by
  intro rows
  induction rows with
  | nil => intro k; simp [padRows, padCount]
  | cons r rest ih =>
    intro k
    simp only [padRows]
    rw [ih (padRow f N r k).2, padRow_counter]
    simp only [padCount, List.map_cons, List.sum_cons]
    omega

theorem padRows_fix {f : Nat → Nat} {N : Nat} :
    ∀ (rows : List (List Char)) (k : Nat), (∀ r ∈ rows, r.length = N) →
      (padRows f N rows k).1 = rows := by
  intro rows
  induction rows with
  | nil => intro k _; rfl
  | cons r rest ih =>
    intro k h
    simp only [padRows]
    rw [padRow_fix (h r (by simp)) k]
    dsimp only
    rw [ih k (fun r2 h2 => h r2 (by simp [h2]))]

theorem extendRows_len {N : Nat} (g : List (List Char)) : (extendRows N g).length = N := by
  simp only [extendRows]
  rw [List.length_take]
  simp
  omega

theorem extendRows_fix {N : Nat} {g : List (List Char)} (h : g.length = N) :
    extendRows N g = g := by
  simp only [extendRows, h, Nat.sub_self, List.replicate_zero, List.append_nil]
  rw [← h, List.take_length]

/-! ## Validator repair and idempotence (C8, C9) -/

theorem padLoop_upper {f : Nat → Nat} {N : Nat} :
    ∀ (m : Nat) (r : List Char) (k : Nat), (∀ c ∈ r, isUpper c = true) →
      ∀ c ∈ (padLoop f N m r k).1, isUpper c = true := by
  intro m
  induction m with
  | zero => intro r k h c hc; exact h c hc
  | succ m ih =>
    intro r k h c hc
    simp only [padLoop] at hc
    by_cases hlt : r.length < N
    · rw [if_pos hlt] at hc
      refine ih _ _ ?_ c hc
      intro d hd
      rcases List.mem_append.mp hd with hd | hd
      · exact h d hd
      · rw [List.mem_singleton.mp hd]
        exact letterOf_upper f k
    · rw [if_neg hlt] at hc
      exact h c hc

theorem padRow_upper {f : Nat → Nat} {N : Nat} {r : List Char} {k : Nat}
    (h : ∀ c ∈ r, isUpper c = true) :
    ∀ c ∈ (padRow f N r k).1, isUpper c = true := by
  intro c hc
  simp only [padRow] at hc
  exact padLoop_upper _ r k h c (List.mem_of_mem_take hc)

theorem padRows_upper {f : Nat → Nat} {N : Nat} :
    ∀ (rows : List (List Char)) (k : Nat), (∀ r ∈ rows, ∀ c ∈ r, isUpper c = true) →
      ∀ r ∈ (padRows f N rows k).1, ∀ c ∈ r, isUpper c = true := by
  intro rows
  induction rows with
  | nil => intro k _ r hr; simp [padRows] at hr
  | cons r0 rest ih =>
    intro k h r hr
    simp only [padRows, List.mem_cons] at hr
    rcases hr with hr | hr
    · rw [hr]
      exact padRow_upper (h r0 (by simp))
    · exact ih _ (fun r2 h2 => h r2 (by simp [h2])) r hr

theorem extendRows_mem {N : Nat} {g : List (List Char)} {r : List Char}
    (h : r ∈ extendRows N g) : r ∈ g ∨ r = [] := by
  simp only [extendRows] at h
  rcases List.mem_append.mp (List.mem_of_mem_take h) with h | h
  · exact Or.inl h
  · exact Or.inr (List.eq_of_mem_replicate h)

theorem maxRowLen_const {N : Nat} :
    ∀ {g : List (List Char)}, g ≠ [] → (∀ r ∈ g, r.length = N) → maxRowLen g = N := by
  intro g
  induction g with
  | nil => intro h _; exact absurd rfl h
  | cons r rest ih =>
    intro _ h
    rcases rest with _ | ⟨r2, rest2⟩
    · simp [maxRowLen, h r (by simp)]
    · have h2 : maxRowLen (r2 :: rest2) = N :=
        ih (by simp) (fun r3 h3 => h r3 (by simp [List.mem_cons] at h3 ⊢; tauto))
      simp only [maxRowLen, List.foldr_cons] at h2 ⊢
      rw [h2, h r (by simp)]
      omega

theorem surviving_fix {ans : List (List Char)}
    (h : ∀ w ∈ ans, normChars w = w ∧ w.isEmpty = false) :
    ((ans.map normChars).filter (fun w => !w.isEmpty)) = ans := by
  rw [map_fix (fun w hw => (h w hw).1)]
  exact List.filter_eq_self.mpr (fun w hw => by rw [(h w hw).2]; rfl)

theorem surviving_mem {j : RawPuzzle} {w : List Char} (h : w ∈ survivingAnswers j) :
    normChars w = w ∧ w.isEmpty = false := by
  simp only [survivingAnswers, List.mem_filter, List.mem_map] at h
  obtain ⟨⟨a, _, ha⟩, hne⟩ := h
  constructor
  · rw [← ha]
    exact normChars_idem a
  · simpa using hne

theorem validator_pass2 (f2 : Nat → Nat) (th : List Char) (N : Nat)
    (G ans : List (List Char))
    (hth : trimChars th = th)
    (hN : 1 ≤ N)
    (hGlen : G.length = N)
    (hGrow : ∀ r ∈ G, r.length = N)
    (hGup : ∀ r ∈ G, ∀ c ∈ r, isUpper c = true)
    (hans : ∀ w ∈ ans, normChars w = w ∧ w.isEmpty = false)
    (hansNE : ans.length ≠ 0) :
    validateAndRepair f2 (toRaw ⟨th, N, G, ans⟩) = .ok ⟨th, N, G, ans⟩ := by
  have hfixG : G.map normChars = G :=
    map_fix (fun r hr => normChars_fix (fun c hc => hGup r hr c hc))
  have hansfix : survivingAnswers ⟨some th, some (N : Int), some G, some ans⟩ = ans := by
    simp only [survivingAnswers]
    exact surviving_fix hans
  simp only [validateAndRepair, toRaw]
  rw [if_neg (by omega : ¬ G.length = 0)]
  rw [hfixG]
  have hN' : (if (N : Int) < 2 then max G.length (maxRowLen G) else (N : Int).toNat) = N := by
    by_cases h2 : 2 ≤ N
    · rw [if_neg (by exact_mod_cast by omega), Int.toNat_natCast]
    · have h1 : N = 1 := by omega
      rw [if_pos (by exact_mod_cast by omega)]
      rw [hGlen, maxRowLen_const (by rw [← List.length_pos_iff_ne_nil]; omega) hGrow]
      omega
  rw [hN']
  rw [extendRows_fix hGlen, padRows_fix G 0 hGrow]
  rw [hansfix]
  rw [if_neg hansNE, hth]

theorem sizeN_pos {s0 : Int} {rows1 : List (List Char)} (h : rows1.length ≠ 0) :
    1 ≤ (if s0 < 2 then max rows1.length (maxRowLen rows1) else s0.toNat) := by
  by_cases h2 : s0 < 2
  · rw [if_pos h2]
    exact le_trans (by omega) (le_max_left _ _)
  · rw [if_neg h2]
    omega

theorem padded_upper (f : Nat → Nat) {N : Nat} {rows1 : List (List Char)}
    (h : ∀ r ∈ rows1, ∀ c ∈ r, isUpper c = true) :
    ∀ r ∈ (padRows f N (extendRows N rows1) 0).1, ∀ c ∈ r, isUpper c = true := by
  refine padRows_upper _ 0 ?_
  intro r hr c hc
  rcases extendRows_mem hr with h2 | h2
  · exact h r h2 c hc
  · rw [h2] at hc
    simp at hc

/-- C9 — Validator idempotence: whenever `validateAndRepair` accepts an
artifact and returns a repaired puzzle, running the validator again on the
re-wrapped result (with any random stream) accepts it and returns it
unchanged — theme, size, grid rows, and answers are all fixed by the
second pass. -/
theorem validator_idempotent (f f2 : Nat → Nat) (j : RawPuzzle) (v : Puzzle)
    (h : validateAndRepair f j = .ok v) :
    validateAndRepair f2 (toRaw v) = .ok v := by
  rcases hgj : j.grid with _ | rows0
  · simp only [validateAndRepair, hgj] at h
    exact Except.noConfusion h
  · simp only [validateAndRepair, hgj] at h
    by_cases h0 : rows0.length = 0
    · rw [if_pos h0] at h
      exact Except.noConfusion h
    · rw [if_neg h0] at h
      by_cases hA : (survivingAnswers j).length = 0
      · rw [if_pos hA] at h
        exact Except.noConfusion h
      · rw [if_neg hA] at h
        rw [Except.ok.injEq] at h
        subst h
        have hN : 1 ≤ (if (match j.size with | some s => s | none => 0) < 2
            then max (rows0.map normChars).length (maxRowLen (rows0.map normChars))
            else (match j.size with | some s => s | none => 0).toNat) :=
          sizeN_pos (by simpa using h0)
        refine validator_pass2 f2 _ _ _ _ ?_ hN ?_ ?_ ?_ ?_ hA
        · rcases j.theme with _ | t
          · exact (by decide)
          · exact trim_idem t
        · rw [padRows_len, extendRows_len]
        · exact padRows_rowlen f (by omega) _ 0
        · exact padded_upper f (fun r hr c hc => by
            rcases List.mem_map.mp hr with ⟨a, _, ha⟩
            rw [← ha] at hc
            exact normChars_upper c hc)
        · exact fun w hw => surviving_mem hw

/-- C8 — Validator square-ification: an artifact with 11 grid rows, a
declared integer size of 12 and at least one surviving answer is accepted
(no error); the repaired grid has exactly 12 rows, every row padded or
truncated to length 12, and the appended 12th row consists entirely of
freshly drawn random letters (the consecutive draws of the stream after
those used to pad the first 11 rows). -/
theorem validator_squarifies (f : Nat → Nat) (j : RawPuzzle) (rows0 : List (List Char))
    (hg : j.grid = some rows0) (h11 : rows0.length = 11) (hs : j.size = some 12)
    (ha : survivingAnswers j ≠ []) :
    ∃ v, validateAndRepair f j = .ok v ∧ v.size = 12 ∧ v.grid.length = 12 ∧
      (∀ r ∈ v.grid, r.length = 12) ∧
      v.grid[11]? = some ((List.range 12).map
        (fun i => letterOf f (padCount 12 (rows0.map normChars) + i))) := by
  have hlen1 : (rows0.map normChars).length = 11 := by simp [h11]
  have hext : extendRows 12 (rows0.map normChars) = rows0.map normChars ++ [[]] := by
    simp only [extendRows, hlen1]
    rw [show (12 - 11 : Nat) = 1 from rfl, List.replicate_one]
    exact List.take_of_length_le (by simp [h11])
  have hcnt : (padRows f 12 (rows0.map normChars) 0).2 =
      padCount 12 (rows0.map normChars) := by
    rw [padRows_counter]
    exact Nat.zero_add _
  have hsplit := congrArg Prod.fst (padRows_append f 12 (rows0.map normChars) [[]] 0)
  dsimp only at hsplit
  have hlast : (padRows f 12 [[]] (padCount 12 (rows0.map normChars))).1 =
      [(List.range 12).map
        (fun i => letterOf f (padCount 12 (rows0.map normChars) + i))] := by
    simp only [padRows]
    rw [padRow_short (by simp : ([] : List Char).length ≤ 12)]
    simp [padRows]
  set G := (padRows f 12 (extendRows 12 (rows0.map normChars)) 0).1 with hGdef
  have hGsplit : G = (padRows f 12 (rows0.map normChars) 0).1 ++
      [(List.range 12).map
        (fun i => letterOf f (padCount 12 (rows0.map normChars) + i))] := by
    rw [hGdef, hext, hsplit, hcnt, hlast]
  have hlen11 : (padRows f 12 (rows0.map normChars) 0).1.length = 11 := by
    rw [padRows_len]
    exact hlen1
  have hGlen : G.length = 12 := by
    rw [hGsplit]
    simp [hlen11]
  have hGrow : ∀ r ∈ G, r.length = 12 := by
    rw [hGdef]
    exact padRows_rowlen f (by norm_num) _ 0
  have h11th : G[11]? = some ((List.range 12).map
      (fun i => letterOf f (padCount 12 (rows0.map normChars) + i))) := by
    rw [hGsplit, List.getElem?_append_right hlen11.le, hlen11]
    simp
  refine ⟨⟨(match j.theme with | some t => trimChars t | none => untitled), 12, G,
    survivingAnswers j⟩, ?_, rfl, hGlen, hGrow, h11th⟩
  simp only [validateAndRepair, hg, hs]
  rw [if_neg (by omega : ¬ rows0.length = 0)]
  rw [if_neg (by decide : ¬ (12 : Int) < 2)]
  rw [if_neg (fun hh => ha (List.length_eq_zero.mp hh))]
  simp only [show Int.toNat 12 = 12 from rfl]

theorem validator_squarifies_witness :
    ∃ v, validateAndRepair (fun i => i) jEx = Except.ok v ∧ v.size = 12 ∧
      v.grid.length = 12 ∧ (∀ r ∈ v.grid, r.length = 12) ∧
      v.grid[11]? = some ((List.range 12).map (fun i =>
        letterOf (fun i => i)
          (padCount 12 ((List.replicate 11 "ABC".toList).map normChars) + i))) :=
  validator_squarifies (fun i => i) jEx (List.replicate 11 "ABC".toList) rfl rfl rfl
    (by decide)

theorem validator_idempotent_witness :
    validateAndRepair (fun i => i + 1)
        (toRaw ((validateAndRepair (fun i => i) jEx).toOption.getD ⟨[], 0, [], []⟩)) =
      Except.ok ((validateAndRepair (fun i => i) jEx).toOption.getD ⟨[], 0, [], []⟩) := by
  apply validator_idempotent (fun i => i) (fun i => i + 1) jEx
  decide!

/-! ## The bent-path engine (C5) -/

theorem firstSome_some {α β : Type} {f : α → Option β} :
    ∀ {l : List α} {b : β}, firstSome f l = some b → ∃ a ∈ l, f a = some b := by
  intro l
  induction l with
  | nil => intro b h; exact absurd h (by simp [firstSome])
  | cons a rest ih =>
    intro b h
    simp only [firstSome] at h
    cases hfa : f a with
    | some b2 =>
      rw [hfa] at h
      exact ⟨a, List.mem_cons_self a rest, by rw [hfa]; exact h⟩
    | none =>
      rw [hfa] at h
      obtain ⟨a2, h2, h3⟩ := ih h
      exact ⟨a2, List.mem_cons_of_mem a h2, h3⟩

theorem firstSome_ne_none {α β : Type} {f : α → Option β} :
    ∀ {l : List α} {a : α}, a ∈ l → f a ≠ none → firstSome f l ≠ none := by
  intro l
  induction l with
  | nil => intro a ha; simp at ha
  | cons a0 rest ih =>
    intro a ha hfa
    simp only [firstSome]
    cases hf0 : f a0 with
    | some b => simp
    | none =>
      rcases List.mem_cons.mp ha with h | h
      · subst h
        exact absurd hf0 hfa
      · exact ih h hfa

theorem stepDiffs_concat :
    ∀ (l : List (Int × Int)) (a : Int × Int),
      stepDiffs (l ++ [a]) = stepDiffs l ++
        (match l.getLast? with
         | none => []
         | some b => [(a.1 - b.1, a.2 - b.2)]) := by
  intro l
  induction l with
  | nil => intro a; rfl
  | cons p rest ih =>
    intro a
    cases rest with
    | nil => rfl
    | cons p2 rest2 =>
      simp only [List.cons_append, stepDiffs, List.append_eq]
      rw [← List.cons_append p2 rest2 [a], ih a]
      simp [List.getLast?_cons_cons]

theorem stepDiffs_append :
    ∀ (r l : List (Int × Int)) (a : Int × Int),
      stepDiffs (l ++ a :: r) = stepDiffs (l ++ [a]) ++ stepDiffs (a :: r) := by
  intro r
  induction r with
  | nil => intro l a; simp [stepDiffs]
  | cons c r2 ih =>
    intro l a
    have h1 : l ++ a :: c :: r2 = (l ++ [a]) ++ c :: r2 := by simp
    rw [h1, ih (l ++ [a]) c]
    rw [stepDiffs_concat (l ++ [a]) c, List.getLast?_concat]
    have h2 : stepDiffs (a :: c :: r2) = (c.1 - a.1, c.2 - a.2) :: stepDiffs (c :: r2) := rfl
    rw [h2]
    simp

theorem countTurns_append_le :
    ∀ (ds1 ds2 : List (Int × Int)), countTurns ds1 ≤ countTurns (ds1 ++ ds2) := by
  intro ds1 ds2
  induction ds1 with
  | nil => simp [countTurns]
  | cons a rest ih =>
    cases rest with
    | nil => simp [countTurns]
    | cons b rest2 =>
      simp only [List.cons_append, countTurns, List.append_eq] at ih ⊢
      omega

theorem countTurns_concat :
    ∀ (ds : List (Int × Int)) (d : Int × Int),
      countTurns (ds ++ [d]) = countTurns ds +
        (match ds.getLast? with
         | none => 0
         | some d0 => if d0 ≠ d then 1 else 0) := by
  intro ds
  induction ds with
  | nil => intro d; rfl
  | cons a rest ih =>
    intro d
    cases rest with
    | nil => simp [countTurns]
    | cons b rest2 =>
      simp only [List.cons_append, countTurns, List.append_eq]
      rw [← List.cons_append b rest2 [d], ih d, List.getLast?_cons_cons]
      omega

theorem nodupB_iff : ∀ (l : List (Int × Int)), nodupB l = true ↔ l.Nodup := by
  intro l
  induction l with
  | nil => simp [nodupB]
  | cons p rest ih =>
    simp only [nodupB, Bool.and_eq_true, Bool.not_eq_true', List.nodup_cons]
    constructor
    · rintro ⟨h1, h2⟩
      refine ⟨fun hm => ?_, ih.mp h2⟩
      have hc : rest.contains p = true := List.elem_iff.mpr hm
      rw [h1] at hc
      exact Bool.noConfusion hc
    · rintro ⟨h1, h2⟩
      refine ⟨?_, ih.mpr h2⟩
      cases hc : rest.contains p with
      | false => rfl
      | true => exact absurd (List.elem_iff.mp hc) h1

theorem contains_false_iff {l : List (Int × Int)} {a : Int × Int} :
    l.contains a = false ↔ a ∉ l := by
  constructor
  · intro h hm
    have hc : l.contains a = true := List.elem_iff.mpr hm
    rw [h] at hc
    exact Bool.noConfusion hc
  · intro hm
    cases hc : l.contains a with
    | false => rfl
    | true => exact absurd (List.elem_iff.mp hc) hm

theorem compatB_len {g : GridS} :
    ∀ {ps : List (Int × Int)} {cs : List Char}, compatB g ps cs = true →
      ps.length = cs.length := by
  intro ps
  induction ps with
  | nil =>
    intro cs h
    cases cs with
    | nil => rfl
    | cons c cs2 => simp [compatB] at h
  | cons q ps2 ih =>
    intro cs h
    cases cs with
    | nil => simp [compatB] at h
    | cons c cs2 =>
      simp only [compatB, Bool.and_eq_true] at h
      simp [ih h.2]

theorem compatB_concat {g : GridS} :
    ∀ {ps : List (Int × Int)} {cs : List Char} {x y : Int} {c : Char},
      compatB g ps cs = true →
      (getS g x y == '.' || getS g x y == c) = true →
      compatB g (ps ++ [(x, y)]) (cs ++ [c]) = true := by
  intro ps
  induction ps with
  | nil =>
    intro cs x y c h1 h2
    cases cs with
    | nil => simp [compatB, h2]
    | cons c2 cs2 => simp [compatB] at h1
  | cons q ps2 ih =>
    intro cs x y c h1 h2
    cases cs with
    | nil => simp [compatB] at h1
    | cons c2 cs2 =>
      simp only [compatB, Bool.and_eq_true] at h1
      simp only [List.cons_append, compatB, Bool.and_eq_true]
      exact ⟨h1.1, ih h1.2 h2⟩

theorem not_not_eq_true {b : Bool} (h : ¬ ((!b) = true)) : b = true := by
  cases b
  · exact absurd rfl h
  · rfl

theorem checkChar_conv {g : GridS} {w : List Char} {idx : Nat} {x y : Int}
    (hidx : idx < w.length)
    (h : (getS g x y == '.' || w[idx]? == some (getS g x y)) = true) :
    (getS g x y == '.' || getS g x y == w[idx]) = true := by
  rw [List.getElem?_eq_getElem hidx] at h
  simp only [Bool.or_eq_true] at h ⊢
  rcases h with h | h
  · exact Or.inl h
  · have h2 : w[idx] = getS g x y := Option.some.inj (beq_iff_eq.mp h)
    exact Or.inr (beq_iff_eq.mpr h2.symm)

theorem checkChar_conv2 {g : GridS} {w : List Char} {idx : Nat} {x y : Int}
    (hidx : idx < w.length)
    (h : (getS g x y == '.' || getS g x y == w[idx]) = true) :
    (getS g x y == '.' || w[idx]? == some (getS g x y)) = true := by
  rw [List.getElem?_eq_getElem hidx]
  simp only [Bool.or_eq_true] at h ⊢
  rcases h with h | h
  · exact Or.inl h
  · exact Or.inr (beq_iff_eq.mpr (congrArg some (beq_iff_eq.mp h).symm))

theorem nodupB_concat {l : List (Int × Int)} {a : Int × Int}
    (h : nodupB l = true) (ha : l.contains a = false) :
    nodupB (l ++ [a]) = true := by
  rw [nodupB_iff] at h ⊢
  rw [List.nodup_append]
  refine ⟨h, List.nodup_singleton a, ?_⟩
  intro b hb hb2
  rw [List.mem_singleton.mp hb2] at hb
  exact contains_false_iff.mp ha hb

theorem guard_le {T turns : Nat} {b : Bool}
    (hguard : ¬ (b && decide (T ≤ turns)) = true) (hle : turns ≤ T) :
    turns + (if b = true then 1 else 0) ≤ T := by
  cases b with
  | false => simpa using hle
  | true =>
    have hlt : ¬ (T ≤ turns) := by
      intro hT
      exact hguard (by simp [hT])
    rw [if_pos rfl]
    omega

theorem dfsB_sound {g : GridS} {N : Nat} {w : List Char} {dirOrder : List (Int × Int)}
    {T : Nat} (hdir : ∀ d ∈ dirOrder, d ∈ DIRS2) :
    ∀ (fuel : Nat) (x y : Int) (idx turns : Nat) (usedDir : Option (Int × Int))
      (visited : List (Int × Int)) (g' : GridS),
      visited.length = idx →
      idx < w.length →
      nodupB (visited ++ [(x, y)]) = true →
      visited.all (fun p => inBoundsB p.1 p.2 N) = true →
      compatB g visited (w.take idx) = true →
      (stepDiffs (visited ++ [(x, y)])).all (fun dd => DIRS2.contains dd) = true →
      countTurns (stepDiffs (visited ++ [(x, y)])) = turns →
      turns ≤ T →
      (match usedDir with
       | none => visited = []
       | some u => (stepDiffs (visited ++ [(x, y)])).getLast? = some u) →
      dfsB g N w dirOrder T fuel x y idx turns usedDir visited = some g' →
      ∃ p, okPathB g N w p T = true ∧ g' = writeVisited g p w := by
  intro fuel
  induction fuel with
  | zero =>
    intro x y idx turns usedDir visited g' _ _ _ _ _ _ _ _ _ h
    exact absurd h (by simp [dfsB])
  | succ fuel ih =>
    intro x y idx turns usedDir visited g' hlen hidx hnd hbd hcp hsd hct hle hud h
    simp only [dfsB] at h
    split at h
    · exact absurd h (by simp)
    · rename_i hb
      split at h
      · exact absurd h (by simp)
      · rename_i hc
        have hbx : inBoundsB x y N = true := not_not_eq_true hb
        have hcx : (getS g x y == '.' || w[idx]? == some (getS g x y)) = true :=
          not_not_eq_true hc
        split at h
        · rename_i hcommit
          have hlenp : (visited ++ [(x, y)]).length = w.length := by
            simp only [List.length_append, List.length_cons, List.length_nil, hlen]
            omega
          refine ⟨visited ++ [(x, y)], ?_, (Option.some.inj h).symm⟩
          simp only [okPathB, Bool.and_eq_true]
          refine ⟨⟨⟨⟨⟨?_, hnd⟩, ?_⟩, hsd⟩, ?_⟩, ?_⟩
          · simp [hlenp]
          · simp only [List.all_append, Bool.and_eq_true]
            exact ⟨hbd, by simp [hbx]⟩
          · simp only [hct, decide_eq_true_eq]
            exact hle
          · have htk : w.take (idx + 1) = w := List.take_of_length_le (by omega)
            have hstep : w.take idx ++ [w[idx]] = w := by
              have h2 : w.take (idx + 1) = w.take idx ++ [w[idx]] := by
                rw [List.take_succ, List.getElem?_eq_getElem hidx]
                rfl
              rw [← h2]
              exact htk
            have := compatB_concat hcp (checkChar_conv hidx hcx)
            rw [hstep] at this
            exact this
        · rename_i hcommit
          obtain ⟨dd, hdd, hfd⟩ := firstSome_some h
          split at hfd
          · exact absurd hfd (by simp)
          · rename_i hguard
            split at hfd
            · exact absurd hfd (by simp)
            · rename_i hnb
              split at hfd
              · exact absurd hfd (by simp)
              · rename_i hcont
                split at hfd
                · exact absurd hfd (by simp)
                · rename_i hpeek
                  have hddD : dd ∈ DIRS2 := hdir dd hdd
                  have hnb2 : inBoundsB (x + dd.1) (y + dd.2) N = true := not_not_eq_true hnb
                  have hcont2 : (visited ++ [(x, y)]).contains (x + dd.1, y + dd.2) = false := by
                    cases hcc : (visited ++ [(x, y)]).contains (x + dd.1, y + dd.2) with
                    | false => rfl
                    | true => exact absurd hcc hcont
                  have hidx2 : idx + 1 < w.length := by
                    have h2 : (idx : Int) ≠ (w.length : Int) - 1 := hcommit
                    omega
                  have hlast1 : (visited ++ [(x, y)]).getLast? = some (x, y) :=
                    List.getLast?_concat visited
                  have hdiffeq : (x + dd.1 - x, y + dd.2 - y) = dd := by
                    have e1 : x + dd.1 - x = dd.1 := by ring
                    have e2 : y + dd.2 - y = dd.2 := by ring
                    rw [e1, e2]
                  have hsd2 : stepDiffs ((visited ++ [(x, y)]) ++ [(x + dd.1, y + dd.2)]) =
                      stepDiffs (visited ++ [(x, y)]) ++ [dd] := by
                    rw [stepDiffs_concat, hlast1]
                    dsimp only
                    rw [hdiffeq]
                  have hcompat2 : compatB g (visited ++ [(x, y)]) (w.take (idx + 1)) = true := by
                    have hstep : w.take idx ++ [w[idx]] = w.take (idx + 1) := by
                      rw [List.take_succ, List.getElem?_eq_getElem hidx]
                      rfl
                    have h2 := compatB_concat hcp (checkChar_conv hidx hcx)
                    rw [hstep] at h2
                    exact h2
                  have hall2 : ((visited ++ [(x, y)]).all
                      (fun p => inBoundsB p.1 p.2 N)) = true := by
                    simp only [List.all_append, Bool.and_eq_true]
                    exact ⟨hbd, by simp [hbx]⟩
                  have hsdall2 : ((stepDiffs ((visited ++ [(x, y)]) ++
                      [(x + dd.1, y + dd.2)])).all (fun dd => DIRS2.contains dd)) = true := by
                    rw [hsd2, List.all_append]
                    simp only [Bool.and_eq_true]
                    refine ⟨hsd, ?_⟩
                    simp only [List.all_cons, List.all_nil, Bool.and_true]
                    exact List.elem_iff.mpr hddD
                  have hlast2 : (stepDiffs ((visited ++ [(x, y)]) ++
                      [(x + dd.1, y + dd.2)])).getLast? = some dd := by
                    rw [hsd2]
                    exact List.getLast?_concat _
                  rcases usedDir with _ | u
                  · have hud0 : visited = [] := hud
                    subst hud0
                    refine ih (x + dd.1) (y + dd.2) (idx + 1) _ (some dd)
                      ([] ++ [(x, y)]) g' ?_ hidx2 ?_ hall2 hcompat2 hsdall2 ?_
                      (guard_le hguard hle) hlast2 hfd
                    · have h0 : idx = 0 := by simpa using hlen.symm
                      subst h0
                      rfl
                    · exact nodupB_concat hnd hcont2
                    · have h0 : (0 : Nat) = turns := hct
                      show 0 = turns + 0
                      omega
                  · have hudu : (stepDiffs (visited ++ [(x, y)])).getLast? = some u := hud
                    refine ih (x + dd.1) (y + dd.2) (idx + 1) _ (some dd)
                      (visited ++ [(x, y)]) g' ?_ hidx2 ?_ hall2 hcompat2 hsdall2 ?_
                      (guard_le hguard hle) hlast2 hfd
                    · simp [hlen]
                    · exact nodupB_concat hnd hcont2
                    · show countTurns (stepDiffs ((visited ++ [(x, y)]) ++
                        [(x + dd.1, y + dd.2)])) =
                          turns + (if decide (u ≠ dd) = true then 1 else 0)
                      rw [hsd2, countTurns_concat, hct, hudu]
                      simp [decide_eq_true_eq]

theorem dfsB_complete {g : GridS} {N : Nat} {w : List Char} {dirOrder : List (Int × Int)}
    {T : Nat} (hdir : ∀ d ∈ DIRS2, d ∈ dirOrder) :
    ∀ (q visited : List (Int × Int)) (x y : Int) (idx turns : Nat)
      (usedDir : Option (Int × Int)) (fuel : Nat),
      q.length + 1 ≤ fuel →
      visited.length = idx →
      idx + 1 + q.length = w.length →
      nodupB (visited ++ (x, y) :: q) = true →
      (((x, y) :: q).all (fun p => inBoundsB p.1 p.2 N)) = true →
      compatB g ((x, y) :: q) (w.drop idx) = true →
      ((stepDiffs ((x, y) :: q)).all (fun dd => DIRS2.contains dd)) = true →
      countTurns (stepDiffs (visited ++ (x, y) :: q)) ≤ T →
      countTurns (stepDiffs (visited ++ [(x, y)])) = turns →
      (match usedDir with
       | none => visited = []
       | some u => (stepDiffs (visited ++ [(x, y)])).getLast? = some u) →
      dfsB g N w dirOrder T fuel x y idx turns usedDir visited ≠ none := by
  intro q
  induction q with
  | nil =>
    intro visited x y idx turns usedDir fuel hfuel hlen hlenw hnd hbd hcp hsd hctle hct hud
    rcases fuel with _ | fuel
    · simp at hfuel
    · simp only [dfsB]
      have hbx : inBoundsB x y N = true := by
        simp only [List.all_cons, List.all_nil, Bool.and_true] at hbd
        exact hbd
      have hidxw : idx < w.length := by
        simp only [List.length_nil] at hlenw
        omega
      have hcpx : (getS g x y == '.' || getS g x y == w[idx]) = true := by
        rw [List.drop_eq_getElem_cons hidxw] at hcp
        simp only [compatB, Bool.and_eq_true] at hcp
        exact hcp.1
      rw [if_neg (show ¬ (!inBoundsB x y N) = true by rw [hbx]; decide)]
      rw [if_neg (show ¬ (!(getS g x y == '.' ||
          w[idx]? == some (getS g x y))) = true by
        rw [checkChar_conv2 hidxw hcpx]; decide)]
      rw [if_pos (show (idx : Int) = (w.length : Int) - 1 by
        simp only [List.length_nil] at hlenw
        omega)]
      simp
  | cons c q2 ih =>
    intro visited x y idx turns usedDir fuel hfuel hlen hlenw hnd hbd hcp hsd hctle hct hud
    rcases fuel with _ | fuel
    · simp at hfuel
    · simp only [dfsB]
      have hbx : inBoundsB x y N = true := by
        simp only [List.all_cons, Bool.and_eq_true] at hbd
        exact hbd.1
      have hidxw : idx < w.length := by
        simp only [List.length_cons] at hlenw
        omega
      have hidx2w : idx + 1 < w.length := by
        simp only [List.length_cons] at hlenw
        omega
      have hcp2 := hcp
      rw [List.drop_eq_getElem_cons hidxw] at hcp2
      simp only [compatB, Bool.and_eq_true] at hcp2
      rw [if_neg (show ¬ (!inBoundsB x y N) = true by rw [hbx]; decide)]
      rw [if_neg (show ¬ (!(getS g x y == '.' ||
          w[idx]? == some (getS g x y))) = true by
        rw [checkChar_conv2 hidxw hcp2.1]; decide)]
      rw [if_neg (show ¬ (idx : Int) = (w.length : Int) - 1 by
        simp only [List.length_cons] at hlenw
        omega)]
      have hdd0mem : (c.1 - x, c.2 - y) ∈ DIRS2 := by
        have hsdc : stepDiffs ((x, y) :: c :: q2) =
            (c.1 - x, c.2 - y) :: stepDiffs (c :: q2) := rfl
        rw [hsdc] at hsd
        simp only [List.all_cons, Bool.and_eq_true] at hsd
        exact List.elem_iff.mp hsd.1
      apply firstSome_ne_none (hdir (c.1 - x, c.2 - y) hdd0mem)
      simp only []
      have hc1 : x + (c.1 - x, c.2 - y).1 = c.1 := by
        dsimp only
        ring
      have hc2 : y + (c.1 - x, c.2 - y).2 = c.2 := by
        dsimp only
        ring
      rw [hc1, hc2]
      -- facts shared by both usedDir branches
      have hassoc : visited ++ (x, y) :: c :: q2 = (visited ++ [(x, y)]) ++ c :: q2 := by
        simp
      have hlast1 : (visited ++ [(x, y)]).getLast? = some (x, y) :=
        List.getLast?_concat visited
      have hsdcc : stepDiffs ((visited ++ [(x, y)]) ++ [c]) =
          stepDiffs (visited ++ [(x, y)]) ++ [(c.1 - x, c.2 - y)] := by
        rw [stepDiffs_concat, hlast1]
      have hsplit : stepDiffs ((visited ++ [(x, y)]) ++ c :: q2) =
          stepDiffs ((visited ++ [(x, y)]) ++ [c]) ++ stepDiffs (c :: q2) :=
        stepDiffs_append q2 (visited ++ [(x, y)]) c
      have hprefT : countTurns (stepDiffs ((visited ++ [(x, y)]) ++ [c])) ≤ T := by
        rw [hassoc] at hctle
        rw [hsplit] at hctle
        exact le_trans (countTurns_append_le _ _) hctle
      have hpref : countTurns (stepDiffs ((visited ++ [(x, y)]) ++ [c])) =
          turns + (match (stepDiffs (visited ++ [(x, y)])).getLast? with
            | none => 0
            | some d0 => if d0 ≠ (c.1 - x, c.2 - y) then 1 else 0) := by
        rw [hsdcc, countTurns_concat, hct]
      have hlast2 : (stepDiffs ((visited ++ [(x, y)]) ++ [c])).getLast? =
          some (c.1 - x, c.2 - y) := by
        rw [hsdcc]
        exact List.getLast?_concat _
      have hcontc : (visited ++ [(x, y)]).contains c = false := by
        rw [nodupB_iff] at hnd
        rw [List.nodup_append] at hnd
        obtain ⟨hn1, hn2, hdis⟩ := hnd
        apply contains_false_iff.mpr
        intro hmem
        rcases List.mem_append.mp hmem with hm | hm
        · exact hdis hm (by simp)
        · rw [List.mem_singleton.mp hm] at hn2
          simp only [List.nodup_cons] at hn2
          exact hn2.1 (by simp)
      have hnd2 : nodupB ((visited ++ [(x, y)]) ++ c :: q2) = true := by
        rw [← hassoc]
        exact hnd
      have hpeekx : (getS g c.1 c.2 == '.' ||
          w[idx + 1]? == some (getS g c.1 c.2)) = true := by
        have hcpq := hcp2.2
        rw [List.drop_eq_getElem_cons hidx2w] at hcpq
        simp only [compatB, Bool.and_eq_true] at hcpq
        exact checkChar_conv2 hidx2w hcpq.1
      have hfuel2 : q2.length + 1 ≤ fuel := by
        simp only [List.length_cons] at hfuel
        omega
      have hlen2 : (visited ++ [(x, y)]).length = idx + 1 := by
        simp [hlen]
      have hlenw2 : idx + 1 + 1 + q2.length = w.length := by
        simp only [List.length_cons] at hlenw
        omega
      have hbd2 : ((c :: q2).all (fun p => inBoundsB p.1 p.2 N)) = true := by
        simp only [List.all_cons, Bool.and_eq_true] at hbd
        simp only [List.all_cons, Bool.and_eq_true]
        exact hbd.2
      have hsd3 : ((stepDiffs (c :: q2)).all (fun dd => DIRS2.contains dd)) = true := by
        have hsdc : stepDiffs ((x, y) :: c :: q2) =
            (c.1 - x, c.2 - y) :: stepDiffs (c :: q2) := rfl
        rw [hsdc] at hsd
        simp only [List.all_cons, Bool.and_eq_true] at hsd
        exact hsd.2
      have hctle2 : countTurns (stepDiffs ((visited ++ [(x, y)]) ++ c :: q2)) ≤ T := by
        rw [← hassoc]
        exact hctle
      rcases usedDir with _ | u
      · have hud0 : visited = [] := hud
        subst hud0
        have hA : ((match (none : Option (Int × Int)), (c.1 - x, c.2 - y) with
            | some u, dd => decide (u ≠ dd)
            | none, dd => false) && decide (T ≤ turns)) = false := by simp
        have hB : (!inBoundsB c.1 c.2 N) = false := by
          simp only [List.all_cons, Bool.and_eq_true] at hbd2
          rw [hbd2.1]
          rfl
        have hC : ([] ++ [(x, y)]).contains (c.1, c.2) = false := hcontc
        have hD : (!(getS g c.1 c.2 == '.' ||
            w[idx + 1]? == some (getS g c.1 c.2))) = false := by
          rw [hpeekx]
          rfl
        simp only [hA, hB, hC, hD, Bool.false_eq_true, if_false]
        refine ih ([] ++ [(x, y)]) c.1 c.2 (idx + 1) _ (some (c.1 - x, c.2 - y)) fuel
          hfuel2 hlen2 hlenw2 hnd2 hbd2 hcp2.2 hsd3 hctle2 ?_ hlast2
        show countTurns (stepDiffs (([] ++ [(x, y)]) ++ [c])) = turns + 0
        rw [hpref]
        rfl
      · have hudu : (stepDiffs (visited ++ [(x, y)])).getLast? = some u := hud
        have hA : ((match (some u : Option (Int × Int)), (c.1 - x, c.2 - y) with
            | some u, dd => decide (u ≠ dd)
            | none, dd => false) && decide (T ≤ turns)) = false := by
          by_cases htu : u = (c.1 - x, c.2 - y)
          · simp [htu]
          · have hturn1 : countTurns (stepDiffs ((visited ++ [(x, y)]) ++ [c])) =
                turns + 1 := by
              rw [hpref, hudu]
              simp [htu]
            have hT1 : turns + 1 ≤ T := by
              rw [← hturn1]
              exact hprefT
            simp only [Bool.and_eq_false_iff]
            right
            simp only [decide_eq_false_iff_not]
            omega
        have hB : (!inBoundsB c.1 c.2 N) = false := by
          simp only [List.all_cons, Bool.and_eq_true] at hbd2
          rw [hbd2.1]
          rfl
        have hC : (visited ++ [(x, y)]).contains (c.1, c.2) = false := hcontc
        have hD : (!(getS g c.1 c.2 == '.' ||
            w[idx + 1]? == some (getS g c.1 c.2))) = false := by
          rw [hpeekx]
          rfl
        simp only [hA, hB, hC, hD, Bool.false_eq_true, if_false]
        refine ih (visited ++ [(x, y)]) c.1 c.2 (idx + 1) _ (some (c.1 - x, c.2 - y)) fuel
          hfuel2 hlen2 hlenw2 hnd2 hbd2 hcp2.2 hsd3 hctle2 ?_ hlast2
        show countTurns (stepDiffs ((visited ++ [(x, y)]) ++ [c])) =
          turns + (if decide (u ≠ (c.1 - x, c.2 - y)) = true then 1 else 0)
        rw [hpref, hudu]
        simp [decide_eq_true_eq]

/-- C5 — Bent-path engine: a successful `tryPlaceBent` commits a path
whose direction changes never exceed the turn budget (together with the
other path-validity conditions), it succeeds whenever any valid path
within the budget exists, and the word step of `buildPuzzle` retries a
word that failed the straight and budget-2 bent attempts once with
budget 3 before raising the placement-failure error. -/
theorem bent_engine_spec (g : GridS) (w : List Char) (s T : Nat) (hwne : w ≠ []) :
    ((tryPlaceBent g w s T).1 = true →
      ∃ p, okPathB g g.length w p T = true ∧
        (tryPlaceBent g w s T).2.1 = writeVisited g p w) ∧
    ((∃ p, okPathB g g.length w p T = true) → (tryPlaceBent g w s T).1 = true) ∧
    (∀ (N : Nat) (g1 : GridS) (s1 : Nat) (g2b : GridS) (s2 : Nat),
      w.length ≤ N →
      tryPlaceStraight g w s = (false, g1, s1) →
      tryPlaceBent g w s1 2 = (false, g2b, s2) →
      placeOneBuild N g w s =
        (match tryPlaceBent g w s2 3 with
         | (true, g3, s3) => Except.ok (g3, s3)
         | (false, _, _) => Except.error (failMsg w))) := by
  have hdirsub : ∀ d ∈ (seededShuffle DIRS2 (seededShuffle (cellsList g.length) s).2).1,
      d ∈ DIRS2 :=
    fun d hd => (seededShuffle_perm _ _).mem_iff.mp hd
  have hdir2 : ∀ d ∈ DIRS2,
      d ∈ (seededShuffle DIRS2 (seededShuffle (cellsList g.length) s).2).1 :=
    fun d hd => (seededShuffle_perm _ _).mem_iff.mpr hd
  refine ⟨?_, ?_, ?_⟩
  · intro h1
    rcases hfs : firstSome (fun st => dfsB g g.length w
        (seededShuffle DIRS2 (seededShuffle (cellsList g.length) s).2).1 T w.length
        (st.1 : Int) (st.2 : Int) 0 0 none [])
      (seededShuffle (cellsList g.length) s).1 with _ | gfin
    · have heq : tryPlaceBent g w s T =
          (false, g, (seededShuffle DIRS2 (seededShuffle (cellsList g.length) s).2).2) := by
        simp only [tryPlaceBent]
        rw [hfs]
      rw [heq] at h1
      simp at h1
    · have heq : tryPlaceBent g w s T =
          (true, gfin, (seededShuffle DIRS2 (seededShuffle (cellsList g.length) s).2).2) := by
        simp only [tryPlaceBent]
        rw [hfs]
      obtain ⟨st, hstmem, hdfs⟩ := firstSome_some hfs
      obtain ⟨p, hok, hwv⟩ := dfsB_sound hdirsub w.length (st.1 : Int) (st.2 : Int) 0 0
        none [] gfin rfl (List.length_pos.mpr hwne) rfl rfl rfl rfl rfl (Nat.zero_le T)
        rfl hdfs
      refine ⟨p, hok, ?_⟩
      rw [heq, ← hwv]
  · rintro ⟨p, hok⟩
    simp only [okPathB, Bool.and_eq_true, decide_eq_true_eq] at hok
    obtain ⟨⟨⟨⟨⟨hplen, hpnd⟩, hpbd⟩, hpsd⟩, hpct⟩, hpcp⟩ := hok
    cases p with
    | nil =>
      simp only [List.length_nil] at hplen
      have hpos : 0 < w.length := List.length_pos.mpr hwne
      omega
    | cons st0 q =>
      have hbd0 : inBoundsB st0.1 st0.2 g.length = true := by
        simp only [List.all_cons, Bool.and_eq_true] at hpbd
        exact hpbd.1
      simp only [inBoundsB, Bool.and_eq_true, decide_eq_true_eq] at hbd0
      obtain ⟨⟨⟨hx0, hy0⟩, hxN⟩, hyN⟩ := hbd0
      have e1 : ((st0.1.toNat : Nat) : Int) = st0.1 := Int.toNat_of_nonneg hx0
      have e2 : ((st0.2.toNat : Nat) : Int) = st0.2 := Int.toNat_of_nonneg hy0
      have hmemcell : (st0.1.toNat, st0.2.toNat) ∈ cellsList g.length := by
        apply cellsList_mem
        · omega
        · omega
      have hmemsc : (st0.1.toNat, st0.2.toNat) ∈ (seededShuffle (cellsList g.length) s).1 :=
        (seededShuffle_perm _ _).mem_iff.mpr hmemcell
      have hne : firstSome (fun st => dfsB g g.length w
          (seededShuffle DIRS2 (seededShuffle (cellsList g.length) s).2).1 T w.length
          (st.1 : Int) (st.2 : Int) 0 0 none [])
        (seededShuffle (cellsList g.length) s).1 ≠ none := by
        apply firstSome_ne_none hmemsc
        show dfsB g g.length w
          (seededShuffle DIRS2 (seededShuffle (cellsList g.length) s).2).1 T w.length
          ((st0.1.toNat : Nat) : Int) ((st0.2.toNat : Nat) : Int) 0 0 none [] ≠ none
        rw [e1, e2]
        have hq : q.length + 1 ≤ w.length := by
          simp only [List.length_cons] at hplen
          omega
        have hq2 : 0 + 1 + q.length = w.length := by
          simp only [List.length_cons] at hplen
          omega
        exact dfsB_complete hdir2 q [] st0.1 st0.2 0 0 none w.length hq rfl hq2
          hpnd hpbd hpcp hpsd hpct rfl rfl
      rcases hfs : firstSome (fun st => dfsB g g.length w
          (seededShuffle DIRS2 (seededShuffle (cellsList g.length) s).2).1 T w.length
          (st.1 : Int) (st.2 : Int) 0 0 none [])
        (seededShuffle (cellsList g.length) s).1 with _ | gfin
      · exact absurd hfs hne
      · have heq : tryPlaceBent g w s T =
            (true, gfin,
              (seededShuffle DIRS2 (seededShuffle (cellsList g.length) s).2).2) := by
          simp only [tryPlaceBent]
          rw [hfs]
        rw [heq]
  · intro N g1 s1 g2b s2 hNw hstr hb2
    simp only [placeOneBuild]
    rw [if_neg (by omega : ¬ N < w.length)]
    rw [hstr]
    dsimp only
    rw [hb2]

theorem bent_engine_spec_witness :
    ((tryPlaceBent gBent "ABC".toList 0 2).1 = true →
      ∃ p, okPathB gBent gBent.length "ABC".toList p 2 = true ∧
        (tryPlaceBent gBent "ABC".toList 0 2).2.1 = writeVisited gBent p "ABC".toList) ∧
    ((∃ p, okPathB gBent gBent.length "ABC".toList p 2 = true) →
      (tryPlaceBent gBent "ABC".toList 0 2).1 = true) ∧
    (∀ (N : Nat) (g1 : GridS) (s1 : Nat) (g2b : GridS) (s2 : Nat),
      "ABC".toList.length ≤ N →
      tryPlaceStraight gBent "ABC".toList 0 = (false, g1, s1) →
      tryPlaceBent gBent "ABC".toList s1 2 = (false, g2b, s2) →
      placeOneBuild N gBent "ABC".toList 0 =
        (match tryPlaceBent gBent "ABC".toList s2 3 with
         | (true, g3, s3) => Except.ok (g3, s3)
         | (false, _, _) => Except.error (failMsg "ABC".toList))) :=
  bent_engine_spec gBent "ABC".toList 0 2 (by decide)


end WordWeb
